import Mathlib

/-!
Verification development for auto_commit_from_patchlist.py.

The script ingests a change-request (CR) ledger (patch_list.txt), resolves every
associated file to the git repository that owns it, groups CRs that share files
within one repository into connected components ("commit plans"), labels plans
whose CR group recurs in several repositories with an ordinal marker, and
renders commit titles/bodies.

Embedding conventions:
  * Python strings are modelled as lists of characters (Str := List Char);
    str.strip / lstrip / rstrip / startswith / splitlines / split are modelled
    by executable functions below with Python semantics.  The script reads the
    ledger in text mode, so all newline styles are already normalised to a
    single newline character before any splitting happens; splitlines therefore
    only needs to treat the newline character.
  * Python dicts are modelled by association lists in insertion order (Python
    dicts iterate in insertion order).  Python sets are modelled by
    duplicate-free lists; whenever the script iterates over a set, the result
    of the iteration is order-insensitive (components and files are sorted
    before being stored), so the list order chosen by the model is immaterial.
  * Loops with non-structural control flow are given an explicit fuel argument
    that is always instantiated with a provably sufficient bound, keeping every
    definition kernel-computable.
-/

set_option maxRecDepth 20000

abbrev Str := List Char

/-- Whitespace class of Python str.strip and of the regex class backslash-s. -/
def pyIsSpace (c : Char) : Bool :=
  c = ' ' || c = '\t' || c = '\n' || c = '\r' || c = '\x0b' || c = '\x0c'

/-- Python str.lstrip(). -/
def pyLStrip (s : Str) : Str := s.dropWhile pyIsSpace

/-- Python str.rstrip(). -/
def pyRStrip (s : Str) : Str := (s.reverse.dropWhile pyIsSpace).reverse

/-- Python str.strip(). -/
def pyStrip (s : Str) : Str := pyRStrip (pyLStrip s)

/-- Lexicographic comparison of strings by code point, as Python compares
strings; strLe a b is true iff a is less than or equal to b. -/
def strLe : Str → Str → Bool
  | [], _ => true
  | _ :: _, [] => false
  | a :: as, b :: bs => if a < b then true else if a = b then strLe as bs else false

instance strLeDecRel : DecidableRel (fun a b : Str => strLe a b = true) :=
  fun _ _ => instDecidableEqBool _ _

/-- Python sorted() on a list of strings. -/
def sortStrs (l : List Str) : List Str :=
  List.insertionSort (fun a b : Str => strLe a b = true) l

/-- Split a character list at every occurrence of one character (helper for
splitlines; Python semantics of str.split on a single character). -/
def splitChar (c : Char) : Str → List Str
  | [] => [[]]
  | x :: xs =>
    if x = c then [] :: splitChar c xs
    else
      match splitChar c xs with
      | [] => [[x]]
      | h :: t => (x :: h) :: t

/-- Python str.splitlines() on newline-normalised text: split at newline
characters, without a trailing empty line when the text ends in a newline. -/
def splitlines (s : Str) : List Str :=
  if s = [] then []
  else if s.getLast? = some '\n' then (splitChar '\n' s).dropLast
  else splitChar '\n' s

/-- Fuel-driven worker for splitOnSep; the fuel is an upper bound on the
number of characters still to be scanned. -/
def splitOnSepAux (sep : Str) : Nat → Str → Str → List Str
  | 0, s, acc => [acc.reverse ++ s]
  | _ + 1, [], acc => [acc.reverse]
  | fuel + 1, c :: rest, acc =>
    if sep ≠ [] ∧ sep.isPrefixOf (c :: rest) then
      acc.reverse :: splitOnSepAux sep fuel (List.drop (sep.length - 1) rest) []
    else
      splitOnSepAux sep fuel rest (c :: acc)

/-- Python str.split(sep): greedy left-to-right split at every occurrence of a
non-empty separator, keeping empty fragments. -/
def splitOnSep (sep s : Str) : List Str :=
  splitOnSepAux sep (s.length + 1) s []

/-- Decimal rendering of a natural number, as a Python f-string renders an int. -/
def natChars (n : Nat) : Str := Nat.toDigits 10 n

/-!  Section 1 of the script: parse_patch_list.  -/

/-- Parsed ledger block (one CR record), mirroring the dict built by
parse_patch_list. -/
structure CrRecord where
  cr_id : Str
  patch_type : Str
  severity : Str
  description_first : Str
  description_full : Str
  files : List Str
deriving DecidableEq, Repr

/-- Mutable scanner state of the while-loop inside parse_patch_list. -/
structure ScanState where
  cr_id : Option Str
  patch_type : Str
  severity : Str
  desc_first : Str
  desc_full_lines : List Str
  files : List Str
deriving DecidableEq, Repr

/-- Initial scanner state of a block (cr_id None, patch_type and severity
empty, desc_first the No Description sentinel). -/
def initScanState : ScanState :=
  { cr_id := none, patch_type := [], severity := [],
    desc_first := "No Description".data, desc_full_lines := [], files := [] }

/-- Skip-blank lookup used by the Patch Type branch and the CR ID fallback:
the first line (from the given ones) whose stripped text is non-empty. -/
def firstNonBlank (ls : List Str) : Option Str :=
  ls.find? (fun l => !(pyStrip l).isEmpty)

/-- Inline CR ID matcher, modelling re.match applied to the pattern that
accepts the label, a colon, optional whitespace and an optional non-empty
value group on the same (already stripped) line. -/
def crIdInline (s : Str) : Option Str :=
  if ("CR ID:".data).isPrefixOf s then
    let t := (s.drop 6).dropWhile pyIsSpace
    if t = [] then none else some (pyStrip t)
  else none

/-- Value taken by the Severity field: the immediately following line,
stripped, when that line is non-blank, and empty otherwise (the loop that
would skip blanks breaks at once, so no later line is consulted). -/
def severityValue (rest : List Str) : Str :=
  match rest with
  | [] => []
  | l :: _ => if pyStrip l = [] then [] else pyStrip l

/-- Predicate on a raw line: its stripped text does not start the Associated
Files section (loop guard of the Description branch). -/
def notAssocFiles (l : Str) : Bool :=
  !(("Associated Files".data).isPrefixOf (pyStrip l))

/-- Collect every non-blank line, stripped, as a file path (the loop after an
Associated Files label). -/
def collectFiles (ls : List Str) : List Str :=
  ls.filterMap (fun l => if pyStrip l = [] then none else some (pyStrip l))

/-- Line scanner of parse_patch_list: one block's lines are scanned in order;
each labelled branch updates the state exactly as the Python loop does.  The
Description branch advances the scan to the terminating Associated Files line;
since that line (when present) necessarily enters the Associated Files branch,
which consumes the remaining lines and breaks, the continuation is inlined
there, which keeps the recursion structural. -/
def scanEntry : List Str → ScanState → ScanState
  | [], st => st
  | line :: rest, st =>
    let s := pyStrip line
    if ("Patch Type".data).isPrefixOf s then
      scanEntry rest { st with patch_type := ((firstNonBlank rest).map pyStrip).getD [] }
    else if ("CR ID".data).isPrefixOf s then
      match crIdInline s with
      | some v => scanEntry rest { st with cr_id := some v }
      | none =>
        match firstNonBlank rest with
        | some l => scanEntry rest { st with cr_id := some (pyStrip l) }
        | none => scanEntry rest st
    else if ("Severity".data).isPrefixOf s then
      scanEntry rest { st with severity := severityValue rest }
    else if ("Description".data).isPrefixOf s then
      let descLines := rest.takeWhile notAssocFiles
      let st' := { st with
        desc_full_lines := descLines.map pyRStrip,
        desc_first := ((descLines.find? (fun l => !(pyStrip l).isEmpty)).map pyStrip).getD st.desc_first }
      match rest.dropWhile notAssocFiles with
      | [] => st'
      | _ :: rest' => { st' with files := st'.files ++ collectFiles rest' }
    else if ("Associated Files".data).isPrefixOf s then
      { st with files := st.files ++ collectFiles rest }
    else
      scanEntry rest st

/-- Assemble the record of one block from the final scanner state. -/
def mkRecord (st : ScanState) (id : Str) : CrRecord :=
  { cr_id := id, patch_type := st.patch_type, severity := st.severity,
    description_first := st.desc_first,
    description_full := pyStrip (List.intercalate ['\n'] st.desc_full_lines),
    files := st.files }

/-- Process one reassembled entry: scan its lines; a block whose CR ID stayed
unresolved (None or empty, both falsy in Python) yields no record. -/
def processEntry (e : Str) : Option CrRecord :=
  let st := scanEntry (splitlines e) initScanState
  match st.cr_id with
  | none => none
  | some id => if id = [] then none else some (mkRecord st id)

/-- Entry text rebuilt from a raw fragment: the separator text is
re-prepended unless the fragment starts (after lstrip) with a colon. -/
def mkChunkEntry (raw : Str) : Str :=
  if [':'].isPrefixOf (pyLStrip raw) then raw else "Patch Type:".data ++ raw

/-- Process one raw fragment of the split: blank fragments are dropped and
the rebuilt entry is scanned. -/
def chunkRecord (raw : Str) : Option CrRecord :=
  if pyStrip raw = [] then none else processEntry (mkChunkEntry raw)

/-- Record list produced from the list of raw fragments. -/
def parseChunks (chunks : List Str) : List CrRecord :=
  chunks.filterMap chunkRecord

/-- parse_patch_list on the ledger text: split at every occurrence of the
Patch Type label and process each fragment. -/
def parse_patch_list (content : Str) : List CrRecord :=
  parseChunks (splitOnSep ("Patch Type:".data) content)

/-!  Section 2 of the script: find_git_project_for_file.

Absolute filesystem locations are modelled as lists of path components below
the filesystem root; os.path.dirname is List.dropLast, and the existing
filesystem is an abstract predicate telling which locations exist (only the
.git marker probes consult it).  The os.path.abspath(os.path.join(root, rel))
resolution of the script is an external collaborator (the os.path library);
find_git_project_for_file therefore receives the already resolved absolute
location of the file, which can be an arbitrary absolute path since relative
inputs may contain upward steps.  The script's containment test is a plain
string-prefix test on the rendered paths, which the model reproduces
verbatim. -/

abbrev AbsDir := List String

abbrev FileSys := AbsDir → Bool

abbrev GitCache := List (AbsDir × Option AbsDir)

/-- Association-list lookup, modelling Python dict access (dicts iterate and
keep keys in insertion order). -/
def alookup {α β : Type} [DecidableEq α] : List (α × β) → α → Option β
  | [], _ => none
  | (k, v) :: rest, a => if k = a then some v else alookup rest a

/-- Rendered text of an absolute location, as os.path renders it. -/
def pathAsString (d : AbsDir) : Str :=
  '/' :: List.intercalate ['/'] (d.map String.data)

/-- Length of the common component run shared by two locations. -/
def commonPrefixLen : List String → List String → Nat
  | a :: as, b :: bs => if a = b then commonPrefixLen as bs + 1 else 0
  | _, _ => 0

/-- Components of os.path.relpath p root: one upward step per root component
beyond the shared run, then the remaining components of p.  The empty result
corresponds to the "." answer of os.path.relpath, which the script replaces
with the empty string. -/
def relpathComps (p root : AbsDir) : List String :=
  let c := commonPrefixLen p root
  List.replicate (root.length - c) ".." ++ p.drop c

/-- Rendered relative path (empty for the root repository itself). -/
def renderRelPath (cs : List String) : Str :=
  List.intercalate ['/'] (cs.map String.data)

/-- Upward walk of find_git_project_for_file.  At the current directory it
first consults the cache, then probes for the .git marker (caching a hit),
then stops at the configured root or at the filesystem root (caching the
no-repository answer), and otherwise ascends to the parent.  Besides the
result and the updated cache it returns the list of directories visited, a
ghost output used only to state properties; it does not influence the other
two.  The fuel argument bounds the number of ascent steps; the caller passes
one more than the depth of the starting directory, which is sufficient. -/
def walkAux (fs : FileSys) (root : AbsDir) :
    Nat → AbsDir → GitCache → List AbsDir → Option AbsDir × GitCache × List AbsDir
  | 0, _, cache, visited => (none, cache, visited)
  | fuel + 1, cur, cache, visited =>
    let visited' := visited ++ [cur]
    match alookup cache cur with
    | some r => (r, cache, visited')
    | none =>
      if fs (cur ++ [".git"]) then (some cur, cache ++ [(cur, some cur)], visited')
      else if cur = root then (none, cache ++ [(cur, none)], visited')
      else if cur.dropLast = cur then (none, cache ++ [(cur, none)], visited')
      else walkAux fs root fuel cur.dropLast cache visited'

/-- find_git_project_for_file on the resolved absolute location of the file:
reject locations whose rendered path does not extend the rendered root as a
character string (the script's startswith test), then walk upward from the
containing directory; a found repository is reported relative to the root. -/
def find_git_project_for_file (fs : FileSys) (root : AbsDir) (absPath : AbsDir)
    (cache : GitCache) : Option Str × GitCache :=
  if !((pathAsString root).isPrefixOf (pathAsString absPath)) then (none, cache)
  else
    let start := absPath.dropLast
    let r := walkAux fs root (start.length + 1) start cache []
    match r.1 with
    | none => (none, r.2.1)
    | some projRoot => (some (renderRelPath (relpathComps projRoot root)), r.2.1)

/-!  build_project_groups.  -/

/-- Metadata subset of a record kept in cr_info, first occurrence wins. -/
structure CrInfo where
  patch_type : Str
  severity : Str
  description_first : Str
  description_full : Str
deriving DecidableEq, Repr

abbrev CrFilesMap := List (Str × List Str)

abbrev ProjectMap := List (Str × CrFilesMap)

/-- Python set.add on a set modelled as a duplicate-free list. -/
def setAdd (l : List Str) (x : Str) : List Str :=
  if x ∈ l then l else l ++ [x]

/-- Add one file to one CR's file set inside a per-project map (defaultdict
semantics: a missing CR key is created at the end). -/
def cfAdd : CrFilesMap → Str → Str → CrFilesMap
  | [], cr, f => [(cr, [f])]
  | (c, fl) :: rest, cr, f =>
    if c = cr then (c, setAdd fl f) :: rest else (c, fl) :: cfAdd rest cr f

/-- Add one file of one CR under one project (defaultdict semantics). -/
def pmAdd : ProjectMap → Str → Str → Str → ProjectMap
  | [], proj, cr, f => [(proj, [(cr, [f])])]
  | (p, m) :: rest, proj, cr, f =>
    if p = proj then (p, cfAdd m cr f) :: rest else (p, m) :: pmAdd rest proj cr f

/-- Per-file step of build_project_groups: resolve the file's repository
(threading the cache) and record it under project and CR unless no repository
was found. -/
def bpgFile (fs : FileSys) (root : AbsDir) (resolveAbs : Str → AbsDir) (cr : Str)
    (st : ProjectMap × GitCache) (f : Str) : ProjectMap × GitCache :=
  let r := find_git_project_for_file fs root (resolveAbs f) st.2
  match r.1 with
  | none => (st.1, r.2)
  | some proj => (pmAdd st.1 proj cr f, r.2)

/-- build_project_groups: fold over the parsed records, registering first-seen
metadata per CR and resolving every associated file; resolveAbs models the
os.path resolution of a ledger path to its absolute location. -/
def build_project_groups (parsed : List CrRecord) (fs : FileSys) (root : AbsDir)
    (resolveAbs : Str → AbsDir) : ProjectMap × List (Str × CrInfo) :=
  let step := fun (acc : ProjectMap × List (Str × CrInfo) × GitCache) (item : CrRecord) =>
    let info :=
      if (alookup acc.2.1 item.cr_id).isSome then acc.2.1
      else acc.2.1 ++ [(item.cr_id,
        { patch_type := item.patch_type, severity := item.severity,
          description_first := item.description_first,
          description_full := item.description_full })]
    let r := item.files.foldl (bpgFile fs root resolveAbs item.cr_id) (acc.1, acc.2.2)
    (r.1, info, r.2)
  let r := parsed.foldl step ([], [], [])
  (r.1, r.2.1)

/-!  Section 3 of the script: find_cr_components_per_project.  -/

abbrev AdjMap := List (Str × List Str)

/-- Append one CR under one file key of the inverted index (defaultdict(list)
semantics). -/
def ftcAdd : List (Str × List Str) → Str → Str → List (Str × List Str)
  | [], f, cr => [(f, [cr])]
  | (g, crs) :: rest, f, cr =>
    if g = f then (g, crs ++ [cr]) :: rest else (g, crs) :: ftcAdd rest f cr

/-- Inverted index file -> CRs touching it, built by iterating the per-project
map in insertion order. -/
def buildFileToCrs (crF : CrFilesMap) : List (Str × List Str) :=
  crF.foldl (fun ftc e => e.2.foldl (fun acc f => ftcAdd acc f e.1) ftc) []

/-- Add b to the adjacency set of a (no effect when a is not a key; in the
script every endpoint is a key). -/
def adjInsert (adj : AdjMap) (a b : Str) : AdjMap :=
  adj.map (fun e => if e.1 = a then (e.1, setAdd e.2 b) else e)

/-- Undirected edge insertion. -/
def addPairTo (adj : AdjMap) (a b : Str) : AdjMap :=
  adjInsert (adjInsert adj a b) b a

/-- All unordered pairs of a CR list become edges (the nested index loops of
the script). -/
def addPairs : List Str → AdjMap → AdjMap
  | [], adj => adj
  | c :: rest, adj => addPairs rest (rest.foldl (fun acc d => addPairTo acc c d) adj)

/-- Adjacency construction of find_cr_components_per_project: every CR starts
with an empty set, and every file touched by more than one CR contributes all
its pairs. -/
def buildAdj (crF : CrFilesMap) : AdjMap :=
  let crIds := sortStrs (crF.map (fun e => e.1))
  let ftc := buildFileToCrs crF
  ftc.foldl (fun adj e => if 1 < e.2.length then addPairs e.2 adj else adj)
    (crIds.map (fun c => (c, [])))

/-- Neighbour list of a node (the adjacency sets are Python sets; their
iteration order is arbitrary, and the components are sorted before being
stored, so the list order is immaterial). -/
def adjNbrs (adj : AdjMap) (a : Str) : List Str :=
  (alookup adj a).getD []

/-- Breadth-first collection of one component: pop a node into the component,
mark and enqueue its unvisited neighbours.  The fuel bounds the number of
pops; since every enqueued node is freshly marked visited, one more than the
number of CRs always suffices. -/
def bfs (adj : AdjMap) : Nat → List Str → List Str → List Str → List Str × List Str
  | 0, _, comp, visited => (comp, visited)
  | _ + 1, [], comp, visited => (comp, visited)
  | fuel + 1, node :: dq, comp, visited =>
    let fresh := (adjNbrs adj node).filter (fun b => !(decide (b ∈ visited)))
    bfs adj fuel (dq ++ fresh) (comp ++ [node]) (visited ++ fresh)

/-- Outer loop of the component search: scan the sorted CR ids, starting a
breadth-first collection at every CR not yet visited.  Returns the components
in discovery order and the final visited set. -/
def componentsLoop (adj : AdjMap) (fuelN : Nat) :
    List Str → List Str → List (List Str) × List Str
  | [], visited => ([], visited)
  | cr :: rest, visited =>
    if cr ∈ visited then componentsLoop adj fuelN rest visited
    else
      let r := bfs adj fuelN [cr] [] (visited ++ [cr])
      let rr := componentsLoop adj fuelN rest r.2
      (r.1 :: rr.1, rr.2)

/-- One commit plan: a sorted connected component of CRs within one project,
together with the sorted union of their files and the per-CR sorted file
lists.  The ordinal fields are filled in later by assign_repo_index. -/
structure CommitPlan where
  project : Str
  group_crs : List Str
  all_files : List Str
  cr_files : CrFilesMap
  repo_index : Option Nat
  repo_total : Option Nat
deriving DecidableEq, Repr

/-- Plan assembled from one sorted component. -/
def mkCommitPlan (proj : Str) (crF : CrFilesMap) (compSorted : List Str) : CommitPlan :=
  { project := proj,
    group_crs := compSorted,
    all_files := sortStrs ((compSorted.flatMap (fun c => (alookup crF c).getD [])).dedup),
    cr_files := compSorted.map (fun c => (c, sortStrs ((alookup crF c).getD []).dedup)),
    repo_index := none,
    repo_total := none }

/-- find_cr_components_per_project: per project build the adjacency from file
overlap and emit one plan per connected component, components discovered by
scanning the sorted CR ids. -/
def find_cr_components_per_project (pm : ProjectMap) : List CommitPlan :=
  pm.flatMap (fun e =>
    let crF := e.2
    let crIds := sortStrs (crF.map (fun x => x.1))
    let adj := buildAdj crF
    let comps := (componentsLoop adj (crIds.length + 1) crIds []).1
    comps.map (fun c => mkCommitPlan e.1 crF (sortStrs c)))

/-!  Sections 4 and 5 of the script: assign_repo_index,
transform_description_for_title, build_commit_title.  -/

instance relProjDecRel :
    DecidableRel (fun a b : Nat × CommitPlan => strLe a.2.project b.2.project = true) :=
  fun _ _ => instDecidableEqBool _ _

/-- Pairs (position, plan) of the plans whose CR group equals the given one,
in position order (one index list of assign_repo_index's grouping dict). -/
def groupPairs (plans : List CommitPlan) (g : List Str) : List (Nat × CommitPlan) :=
  plans.enum.filter (fun q => decide (q.2.group_crs = g))

/-- The same pairs sorted by project path (the stable in-place sort of
assign_repo_index; sorting pairs carrying their original positions models the
index list without sharing mutable state). -/
def groupPairsSorted (plans : List CommitPlan) (g : List Str) : List (Nat × CommitPlan) :=
  List.insertionSort (fun a b : Nat × CommitPlan => strLe a.2.project b.2.project = true)
    (groupPairs plans g)

/-- assign_repo_index: plans are grouped by their exact CR-group list; within
one group the plan indices are ordered by project path (a stable sort, as
Python's list.sort), and each plan receives its 1-based position and the
group's size.  Modelled without mutation: every plan is rebuilt with its two
ordinal fields set. -/
def assign_repo_index (plans : List CommitPlan) : List CommitPlan :=
  plans.enum.map (fun ip =>
    let pos := ((groupPairsSorted plans ip.2.group_crs).map (fun q => q.1)).indexOf ip.1 + 1
    { ip.2 with
      repo_index := some pos,
      repo_total := some ((groupPairs plans ip.2.group_crs).length) })

/-- Matcher of the security-advisory title pattern: the literal bracketed
Google Security Patch tag, optional whitespace, a non-empty bracket group
free of closing brackets, and the rest of the line as the capture (regular
expression matching stops a dot-group at a newline and does not require
reaching the end of the text). -/
def gspMatch (d : Str) : Option Str :=
  if ("[Google Security Patch]".data).isPrefixOf d then
    match (d.drop 23).dropWhile pyIsSpace with
    | '[' :: u =>
      match u.takeWhile (fun c => c ≠ ']'), u.dropWhile (fun c => c ≠ ']') with
      | [], _ => none
      | _ :: _, ']' :: rest => some (rest.takeWhile (fun c => c ≠ '\n'))
      | _ :: _, _ => none
    | _ => none
  else none

/-- transform_description_for_title: empty text stays empty; a matched
security-advisory pattern is rewritten to the tag, a space and the stripped
capture; everything else passes through. -/
def transform_description_for_title (descFirst : Str) : Str :=
  if descFirst = [] then []
  else
    match gspMatch descFirst with
    | some rest => "[Google Security Patch] ".data ++ pyStrip rest
    | none => descFirst

/-- Lookup of the first description line in cr_info, empty when the CR is
unknown (dict.get chaining with empty defaults). -/
def infoDescFirst (crInfo : List (Str × CrInfo)) (cr : Str) : Str :=
  match alookup crInfo cr with
  | some i => i.description_first
  | none => []

/-- build_commit_title: bracketed tag alone for an empty group; otherwise the
tag and every group CR in brackets (stored order), the transformed summary of
the lexicographically first CR when non-empty, and the ordinal marker when
the plan carries one with a total above one. -/
def build_commit_title (pTag : Str) (groupCrs : List Str) (crInfo : List (Str × CrInfo))
    (repoIndex repoTotal : Option Nat) : Str :=
  if groupCrs = [] then '[' :: pTag ++ [']']
  else
    let firstCr := (sortStrs groupCrs).headD []
    let subjectCore := transform_description_for_title (infoDescFirst crInfo firstCr)
    let parts := ('[' :: pTag ++ [']']) ++ groupCrs.flatMap (fun c => '[' :: c ++ [']'])
    let t1 := if subjectCore = [] then parts else parts ++ ' ' :: subjectCore
    match repoIndex, repoTotal with
    | some i, some t => if 1 < t then t1 ++ (" [".data ++ natChars i ++ ['/'] ++ natChars t ++ [']']) else t1
    | _, _ => t1

/-!  Notions taken from the specification's wording, used to state claims
about the code (they are comparison points, not part of the script). -/

/-- Modelled from the spec: a resolved absolute location "lies under the
absolute root" when the root's components are an initial run of its
components (the root itself included). -/
def underRoot (absPath root : AbsDir) : Bool :=
  root.isPrefixOf absPath

/-- Modelled from the spec: a summary "of the form
[Google Security Patch][anything]rest" — the two bracket groups are adjacent
and the inner group is arbitrary. -/
def gspClaimForm (d : Str) : Prop :=
  ∃ inner rest : Str, d = "[Google Security Patch][".data ++ inner ++ ']' :: rest

/-- Reachability along the adjacency relation: the reflexive-transitive
closure of "is a recorded neighbour of". -/
def AdjReach (adj : AdjMap) (s x : Str) : Prop :=
  Relation.ReflTransGen (fun a b => b ∈ adjNbrs adj a) s x

/-- The spec's relation on CR identifiers: the two CRs share at least one
file among the files recorded for them in the per-project map. -/
def sharesFile (crF : CrFilesMap) (a b : Str) : Prop :=
  ∃ f, f ∈ (alookup crF a).getD [] ∧ f ∈ (alookup crF b).getD []

/-!  Basic facts about the string order and sorting. -/

theorem strLe_refl (a : Str) : strLe a a = true := by
  induction a with
  | nil => rfl
  | cons c t ih => simp [strLe, ih]

theorem strLe_total (a : Str) : ∀ b, strLe a b = true ∨ strLe b a = true := by
  induction a with
  | nil => intro b; left; rfl
  | cons c t ih =>
    intro b
    cases b with
    | nil => right; rfl
    | cons d u =>
      rcases lt_trichotomy c d with h | h | h
      · left; simp [strLe, h]
      · subst h
        rcases ih u with h' | h' <;> simp [strLe, h', lt_irrefl]
      · right; simp [strLe, h]

theorem strLe_trans : ∀ {a b c : Str}, strLe a b = true → strLe b c = true → strLe a c = true := by
  intro a
  induction a with
  | nil => intro b c _ _; rfl
  | cons x xs ih =>
    intro b c hab hbc
    cases b with
    | nil => simp [strLe] at hab
    | cons y ys =>
      cases c with
      | nil => simp [strLe] at hbc
      | cons z zs =>
        simp only [strLe] at hab hbc ⊢
        by_cases hxy : x < y
        · by_cases hyz : y < z
          · simp [lt_trans hxy hyz]
          · simp only [if_neg hyz] at hbc
            by_cases hyz' : y = z
            · subst hyz'; simp [hxy]
            · simp [hyz'] at hbc
        · simp only [if_neg hxy] at hab
          by_cases hxy' : x = y
          · subst hxy'
            simp only [if_pos rfl] at hab
            by_cases hxz : x < z
            · simp [hxz]
            · simp only [if_neg hxz] at hbc ⊢
              by_cases hxz' : x = z
              · subst hxz'; simp only [if_pos rfl] at hbc ⊢; exact ih hab hbc
              · simp [hxz'] at hbc
          · simp [hxy'] at hab

theorem strLe_antisymm : ∀ {a b : Str}, strLe a b = true → strLe b a = true → a = b := by
  intro a
  induction a with
  | nil =>
    intro b _ hba
    cases b with
    | nil => rfl
    | cons y ys => simp [strLe] at hba
  | cons x xs ih =>
    intro b hab hba
    cases b with
    | nil => simp [strLe] at hab
    | cons y ys =>
      simp only [strLe] at hab hba
      by_cases hxy : x < y
      · simp [asymm hxy, ne_of_gt hxy] at hba
      · simp only [if_neg hxy] at hab
        by_cases hxy' : x = y
        · subst hxy'
          simp only [if_pos rfl, if_neg (lt_irrefl x)] at hab hba
          exact congrArg (x :: ·) (ih hab hba)
        · simp [hxy'] at hab

instance strLeIsTotal : IsTotal Str (fun a b => strLe a b = true) := ⟨strLe_total⟩

instance strLeIsTrans : IsTrans Str (fun a b => strLe a b = true) :=
  ⟨fun _ _ _ => strLe_trans⟩

theorem sortStrs_perm (l : List Str) : (sortStrs l).Perm l :=
  List.perm_insertionSort _ l

theorem mem_sortStrs {a : Str} {l : List Str} : a ∈ sortStrs l ↔ a ∈ l :=
  (sortStrs_perm l).mem_iff

theorem sortStrs_sorted (l : List Str) :
    List.Sorted (fun a b => strLe a b = true) (sortStrs l) :=
  List.sorted_insertionSort _ l

theorem sortStrs_nodup {l : List Str} (h : l.Nodup) : (sortStrs l).Nodup :=
  (sortStrs_perm l).nodup_iff.mpr h

theorem sortStrs_length (l : List Str) : (sortStrs l).length = l.length :=
  (sortStrs_perm l).length_eq

/-- Head of the sorted list is the least element. -/
theorem sortStrs_head_min {l : List Str} (h : l ≠ []) :
    (sortStrs l).headD [] ∈ l ∧ ∀ x ∈ l, strLe ((sortStrs l).headD []) x = true := by
  have hne : sortStrs l ≠ [] := by
    intro h0
    exact h (List.eq_nil_of_length_eq_zero (by rw [← sortStrs_length l, h0]; rfl))
  obtain ⟨m, t, hs⟩ : ∃ m t, sortStrs l = m :: t := by
    cases h' : sortStrs l with
    | nil => exact absurd h' hne
    | cons a b => exact ⟨a, b, rfl⟩
  have hsor := sortStrs_sorted l
  rw [hs] at hsor ⊢
  simp only [List.headD_cons]
  constructor
  · exact mem_sortStrs.mp (by rw [hs]; exact List.mem_cons_self m t)
  · intro x hx
    have hx' : x ∈ m :: t := by rw [← hs]; exact mem_sortStrs.mpr hx
    rcases List.mem_cons.mp hx' with rfl | hxt
    · exact strLe_refl x
    · exact List.rel_of_sorted_cons hsor x hxt

/-!  Step lemmas for the line scanner. -/

/-- Scanning a Severity label line stores the severityValue of the remaining
lines and continues. -/
theorem scanEntry_severity_label (rest : List Str) (st : ScanState) :
    scanEntry ("Severity:".data :: rest) st =
      scanEntry rest { st with severity := severityValue rest } := by
  have h1 : ("Patch Type".data).isPrefixOf (pyStrip ("Severity:".data)) = false := by decide
  have h2 : ("CR ID".data).isPrefixOf (pyStrip ("Severity:".data)) = false := by decide
  have h3 : ("Severity".data).isPrefixOf (pyStrip ("Severity:".data)) = true := by decide
  simp only [scanEntry, h1, h2, h3, Bool.false_eq_true, if_false, if_true]

/-- Scanning a Patch Type label line stores the first non-blank following
line (stripped; empty when there is none) and continues. -/
theorem scanEntry_patch_label (rest : List Str) (st : ScanState) :
    scanEntry ("Patch Type:".data :: rest) st =
      scanEntry rest { st with patch_type := ((firstNonBlank rest).map pyStrip).getD [] } := by
  have h1 : ("Patch Type".data).isPrefixOf (pyStrip ("Patch Type:".data)) = true := by decide
  simp only [scanEntry, h1, if_true]

/-- Scanning a bare CR ID label line (no inline value) falls back to the
first non-blank following line. -/
theorem scanEntry_crid_label (rest : List Str) (st : ScanState) :
    scanEntry ("CR ID:".data :: rest) st =
      match firstNonBlank rest with
      | some l => scanEntry rest { st with cr_id := some (pyStrip l) }
      | none => scanEntry rest st := by
  have h1 : ("Patch Type".data).isPrefixOf (pyStrip ("CR ID:".data)) = false := by decide
  have h2 : ("CR ID".data).isPrefixOf (pyStrip ("CR ID:".data)) = true := by decide
  have h3 : crIdInline (pyStrip ("CR ID:".data)) = none := by decide
  simp only [scanEntry, h1, h2, h3, Bool.false_eq_true, if_false, if_true]

/-- Scanning a blank line changes nothing. -/
theorem scanEntry_blank (rest : List Str) (st : ScanState) :
    scanEntry (([] : Str) :: rest) st = scanEntry rest st := by
  have h1 : ("Patch Type".data).isPrefixOf (pyStrip []) = false := by decide
  have h2 : ("CR ID".data).isPrefixOf (pyStrip []) = false := by decide
  have h3 : ("Severity".data).isPrefixOf (pyStrip []) = false := by decide
  have h4 : ("Description".data).isPrefixOf (pyStrip []) = false := by decide
  have h5 : ("Associated Files".data).isPrefixOf (pyStrip []) = false := by decide
  simp only [scanEntry, h1, h2, h3, h4, h5, Bool.false_eq_true, if_false]

/-- Scanning a final line that carries none of the three value-bearing labels
leaves severity, patch_type and cr_id unchanged. -/
theorem scanEntry_single_preserve (v : Str) (st : ScanState)
    (hpt : ("Patch Type".data).isPrefixOf (pyStrip v) = false)
    (hcr : ("CR ID".data).isPrefixOf (pyStrip v) = false)
    (hsev : ("Severity".data).isPrefixOf (pyStrip v) = false) :
    (scanEntry [v] st).severity = st.severity ∧
    (scanEntry [v] st).patch_type = st.patch_type ∧
    (scanEntry [v] st).cr_id = st.cr_id := by
  simp only [scanEntry, hpt, hcr, hsev, Bool.false_eq_true, if_false]
  by_cases h4 : ("Description".data).isPrefixOf (pyStrip v) = true
  · simp [h4, scanEntry]
  · simp only [h4, if_false]
    by_cases h5 : ("Associated Files".data).isPrefixOf (pyStrip v) = true
    · simp [h5]
    · simp [h4, h5, scanEntry]

/-!  Claim C6.  -/

/-- C6: when parsing a block, the Severity value is the line immediately
following the Severity label when that line is non-blank and the empty string
otherwise; a blank line directly after the label is never skipped, while the
Patch Type and CR ID lookups do skip past the same blank line to the value
beyond it.  Stated for any final value line carrying no label of its own. -/
theorem severity_takes_next_line_only (v : Str)
    (hnb : pyStrip v ≠ [])
    (hpt : ("Patch Type".data).isPrefixOf (pyStrip v) = false)
    (hcr : ("CR ID".data).isPrefixOf (pyStrip v) = false)
    (hsev : ("Severity".data).isPrefixOf (pyStrip v) = false) :
    (scanEntry ["Severity:".data, [], v] initScanState).severity = []
    ∧ (scanEntry ["Severity:".data, v] initScanState).severity = pyStrip v
    ∧ (scanEntry ["Patch Type:".data, [], v] initScanState).patch_type = pyStrip v
    ∧ (scanEntry ["CR ID:".data, [], v] initScanState).cr_id = some (pyStrip v) := by
  have hfnb : firstNonBlank [[], v] = some v := by
    simp only [firstNonBlank, List.find?]
    have h0 : (!(pyStrip ([] : Str)).isEmpty) = false := by decide
    have h1 : (!(pyStrip v).isEmpty) = true := by
      cases h : pyStrip v with
      | nil => exact absurd h hnb
      | cons c t => rfl
    rw [h0, h1]
  have hsv : severityValue ([] :: [v]) = [] := by
    have : pyStrip ([] : Str) = [] := by decide
    simp [severityValue, this]
  refine ⟨?_, ?_, ?_, ?_⟩
  · rw [scanEntry_severity_label, hsv, scanEntry_blank]
    exact (scanEntry_single_preserve v _ hpt hcr hsev).1
  · rw [scanEntry_severity_label]
    have : severityValue [v] = pyStrip v := by simp [severityValue, hnb]
    rw [this]
    exact (scanEntry_single_preserve v _ hpt hcr hsev).1
  · rw [scanEntry_patch_label, hfnb, scanEntry_blank]
    exact (scanEntry_single_preserve v _ hpt hcr hsev).2.1
  · rw [scanEntry_crid_label, hfnb, scanEntry_blank]
    exact (scanEntry_single_preserve v _ hpt hcr hsev).2.2

/-- Witness for C6 at the concrete severity value High. -/
theorem severity_takes_next_line_only_witness :
    (scanEntry ["Severity:".data, [], "High".data] initScanState).severity = []
    ∧ (scanEntry ["Severity:".data, "High".data] initScanState).severity = pyStrip ("High".data)
    ∧ (scanEntry ["Patch Type:".data, [], "High".data] initScanState).patch_type = pyStrip ("High".data)
    ∧ (scanEntry ["CR ID:".data, [], "High".data] initScanState).cr_id = some (pyStrip ("High".data)) :=
  severity_takes_next_line_only ("High".data) (by decide) (by decide) (by decide) (by decide)

/-!  Claim C7.  -/

/-- C7: a ledger block in which no CR ID can be resolved contributes no
record, and dropping it from the fragment sequence leaves the records of all
other blocks untouched. -/
theorem unresolved_block_contributes_nothing (pre post : List Str) (chunk : Str)
    (hid : (scanEntry (splitlines (mkChunkEntry chunk)) initScanState).cr_id = none) :
    parseChunks (pre ++ chunk :: post) = parseChunks (pre ++ post) := by
  have h0 : chunkRecord chunk = none := by
    unfold chunkRecord
    by_cases hb : pyStrip chunk = []
    · simp [hb]
    · simp [hb, processEntry, hid]
  simp [parseChunks, List.filterMap_append, List.filterMap_cons, h0]

/-- Witness for C7: a severity-only block between two well-formed blocks is
dropped without affecting their records. -/
theorem unresolved_block_contributes_nothing_witness :
    parseChunks (["".data, "\nCR ID: A\nAssociated Files:\n f1\n".data]
        ++ ("\nSeverity:\n High\n".data) :: ["\nCR ID: B\n".data])
      = parseChunks (["".data, "\nCR ID: A\nAssociated Files:\n f1\n".data]
        ++ ["\nCR ID: B\n".data]) :=
  unresolved_block_contributes_nothing _ _ ("\nSeverity:\n High\n".data) (by decide)

/-!  Claim C9.  -/

theorem takeWhile_append_of_all {α : Type} {p : α → Bool} {l r : List α}
    (h : ∀ x ∈ l, p x = true) :
    (l ++ r).takeWhile p = l ++ r.takeWhile p := by
  induction l with
  | nil => rfl
  | cons a t ih =>
    simp only [List.cons_append, List.takeWhile_cons, h a (List.mem_cons_self a t), if_true]
    rw [ih (fun x hx => h x (List.mem_cons_of_mem a hx))]

theorem dropWhile_append_of_all {α : Type} {p : α → Bool} {l r : List α}
    (h : ∀ x ∈ l, p x = true) :
    (l ++ r).dropWhile p = r.dropWhile p := by
  induction l with
  | nil => rfl
  | cons a t ih =>
    simp only [List.cons_append, List.dropWhile_cons, h a (List.mem_cons_self a t), if_true]
    exact ih (fun x hx => h x (List.mem_cons_of_mem a hx))

theorem takeWhile_all {α : Type} {p : α → Bool} {l : List α}
    (h : ∀ x ∈ l, p x = true) : l.takeWhile p = l := by
  have := takeWhile_append_of_all (r := ([] : List α)) h
  simpa using this

/-- Scanning a CR ID label line with an inline value stores that value and
continues. -/
theorem scanEntry_crid_inline (line v : Str) (rest : List Str) (st : ScanState)
    (h1 : ("Patch Type".data).isPrefixOf (pyStrip line) = false)
    (h2 : ("CR ID".data).isPrefixOf (pyStrip line) = true)
    (h3 : crIdInline (pyStrip line) = some v) :
    scanEntry (line :: rest) st = scanEntry rest { st with cr_id := some v } := by
  simp only [scanEntry, h1, h2, h3, Bool.false_eq_true, if_false, if_true]

/-- Counterexample to C9: the stored full description is not the verbatim
text of the captured lines.  For the single captured line with surrounding
spaces, the record stores the stripped text, which differs from the verbatim
line. -/
theorem description_not_verbatim_counterexample :
    ((parse_patch_list ("Patch Type:\nCR ID: X\nDescription:\n  hello  \nAssociated Files:\n f".data)).map
        (fun r => r.description_full) = ["hello".data])
    ∧ ((splitlines ("Patch Type:\nCR ID: X\nDescription:\n  hello  \nAssociated Files:\n f".data)).drop 3
        |>.takeWhile notAssocFiles) = ["  hello  ".data]
    ∧ List.intercalate ['\n'] ["  hello  ".data] = "  hello  ".data
    ∧ ("hello".data : Str) ≠ ("  hello  ".data : Str) := by decide

/-- C9 as amended: within a block, the Description section captures all lines
after the label up to (not including) the first line whose stripped text
starts the Associated Files section; each captured line is right-stripped,
and the stored full description is those right-stripped lines joined by
newlines and stripped of surrounding whitespace.  The first-line summary is
the first non-blank captured line, stripped, defaulting to the No Description
sentinel. -/
theorem description_capture (descLines : List Str) (f : Str)
    (hd : ∀ l ∈ descLines, notAssocFiles l = true) :
    (scanEntry ("Patch Type:".data :: ("CR ID: X".data) :: ("Description:".data)
        :: (descLines ++ ["Associated Files:".data, f])) initScanState).desc_full_lines
      = descLines.map pyRStrip
    ∧ (scanEntry ("Patch Type:".data :: ("CR ID: X".data) :: ("Description:".data)
        :: (descLines ++ ["Associated Files:".data, f])) initScanState).desc_first
      = ((descLines.find? (fun l => !(pyStrip l).isEmpty)).map pyStrip).getD ("No Description".data)
    ∧ ∀ id, (mkRecord (scanEntry ("Patch Type:".data :: ("CR ID: X".data) :: ("Description:".data)
        :: (descLines ++ ["Associated Files:".data, f])) initScanState) id).description_full
      = pyStrip (List.intercalate ['\n'] (descLines.map pyRStrip)) := by
  rw [scanEntry_patch_label]
  rw [scanEntry_crid_inline _ ("X".data) _ _ (by decide) (by decide) (by decide)]
  have h1 : ("Patch Type".data).isPrefixOf (pyStrip ("Description:".data)) = false := by decide
  have h2 : ("CR ID".data).isPrefixOf (pyStrip ("Description:".data)) = false := by decide
  have h3 : ("Severity".data).isPrefixOf (pyStrip ("Description:".data)) = false := by decide
  have h4 : ("Description".data).isPrefixOf (pyStrip ("Description:".data)) = true := by decide
  have haf : notAssocFiles ("Associated Files:".data) = false := by decide
  have htake : ((descLines ++ ["Associated Files:".data, f]).takeWhile notAssocFiles) = descLines := by
    rw [takeWhile_append_of_all hd]
    simp [List.takeWhile_cons, haf]
  have hdrop : ((descLines ++ ["Associated Files:".data, f]).dropWhile notAssocFiles)
      = ["Associated Files:".data, f] := by
    rw [dropWhile_append_of_all hd]
    simp [List.dropWhile_cons, haf]
  simp only [scanEntry, h1, h2, h3, h4, Bool.false_eq_true, if_false, if_true, htake, hdrop]
  simp [mkRecord, initScanState]

/-- Witness for C9 at a concrete two-line description. -/
theorem description_capture_witness :
    (scanEntry ("Patch Type:".data :: ("CR ID: X".data) :: ("Description:".data)
        :: (["  hello  ".data, ([] : Str)] ++ ["Associated Files:".data, " f".data])) initScanState).desc_full_lines
      = ["  hello  ".data, ([] : Str)].map pyRStrip
    ∧ (scanEntry ("Patch Type:".data :: ("CR ID: X".data) :: ("Description:".data)
        :: (["  hello  ".data, ([] : Str)] ++ ["Associated Files:".data, " f".data])) initScanState).desc_first
      = ((["  hello  ".data, ([] : Str)].find? (fun l => !(pyStrip l).isEmpty)).map pyStrip).getD ("No Description".data)
    ∧ ∀ id, (mkRecord (scanEntry ("Patch Type:".data :: ("CR ID: X".data) :: ("Description:".data)
        :: (["  hello  ".data, ([] : Str)] ++ ["Associated Files:".data, " f".data])) initScanState) id).description_full
      = pyStrip (List.intercalate ['\n'] (["  hello  ".data, ([] : Str)].map pyRStrip)) :=
  description_capture ["  hello  ".data, ([] : Str)] (" f".data) (by decide)

/-!  Claim C3.  -/

/-- Counterexample to C3: with no repository marker anywhere, resolving a
file three levels below the root ascends through three directories but the
final cache holds only the terminal root entry; the first visited directory
is absent from the cache. -/
theorem walk_cache_counterexample :
    find_git_project_for_file (fun _ => false) ["g700"] ["g700", "a", "b", "f.c"] []
      = (none, [(["g700"], none)])
    ∧ (walkAux (fun _ => false) ["g700"] 4 ["g700", "a", "b"] [] []).2.2
      = [["g700", "a", "b"], ["g700", "a"], ["g700"]]
    ∧ alookup [((["g700"] : AbsDir), (none : Option AbsDir))] ["g700", "a", "b"] = none := by
  decide

/-- Failed ascents starting from an empty cache create exactly one cache
entry, bound to the last directory visited. -/
theorem walkAux_no_marker_cache (fs : FileSys) (root : AbsDir) :
    ∀ fuel cur visited, cur.length < fuel →
      (walkAux fs root fuel cur [] visited).1 = none →
      ∃ t, (walkAux fs root fuel cur [] visited).2.1 = [(t, none)]
        ∧ (walkAux fs root fuel cur [] visited).2.2.getLast? = some t := by
  intro fuel
  induction fuel with
  | zero => intro cur visited h; exact absurd h (Nat.not_lt_zero _)
  | succ fuel ih =>
    intro cur visited hlen hres
    by_cases hm : fs (cur ++ [".git"]) = true
    · exfalso
      simp only [walkAux, alookup, hm, if_true] at hres
      exact Option.noConfusion hres
    · by_cases hr : cur = root
      · subst hr
        refine ⟨cur, ?_, ?_⟩ <;>
          simp [walkAux, alookup, hm, List.getLast?_append]
      · by_cases hp : cur.dropLast = cur
        · refine ⟨cur, ?_, ?_⟩ <;>
            simp [walkAux, alookup, hm, hr, hp, List.getLast?_append]
        · have hstep : walkAux fs root (fuel + 1) cur [] visited
              = walkAux fs root fuel cur.dropLast [] (visited ++ [cur]) := by
            simp [walkAux, alookup, hm, hr, hp]
          have hcur : cur ≠ [] := by
            intro h0; exact hp (by rw [h0]; rfl)
          have hlen' : cur.dropLast.length < fuel := by
            rw [List.length_dropLast]
            have h1 : 1 ≤ cur.length := List.length_pos.mpr hcur
            omega
          rw [hstep] at hres ⊢
          exact ih cur.dropLast (visited ++ [cur]) hlen' hres

/-- C3 amended: when the upward walk (started, as the resolver starts it,
with an empty cache and fuel exceeding the starting depth) terminates without
finding a repository marker, the no-repository answer is stored in the cache
only for the terminal directory of the ascent; every other visited directory
remains absent from the cache. -/
theorem walk_failure_caches_only_terminal (fs : FileSys) (root start : AbsDir)
    (hres : (walkAux fs root (start.length + 1) start [] []).1 = none) :
    ∃ t, (walkAux fs root (start.length + 1) start [] []).2.1 = [(t, none)]
      ∧ (walkAux fs root (start.length + 1) start [] []).2.2.getLast? = some t
      ∧ ∀ d ∈ (walkAux fs root (start.length + 1) start [] []).2.2, d ≠ t →
          alookup (walkAux fs root (start.length + 1) start [] []).2.1 d = none := by
  obtain ⟨t, h1, h2⟩ :=
    walkAux_no_marker_cache fs root (start.length + 1) start [] (Nat.lt_succ_self _) hres
  refine ⟨t, h1, h2, fun d _ hd => ?_⟩
  rw [h1]
  simp [alookup, Ne.symm hd]

/-- Witness for C3's amended statement on the concrete markerless tree. -/
theorem walk_failure_caches_only_terminal_witness :
    ∃ t, (walkAux (fun _ => false) ["g700"] 4 ["g700", "a", "b"] [] []).2.1 = [(t, none)]
      ∧ (walkAux (fun _ => false) ["g700"] 4 ["g700", "a", "b"] [] []).2.2.getLast? = some t
      ∧ ∀ d ∈ (walkAux (fun _ => false) ["g700"] 4 ["g700", "a", "b"] [] []).2.2, d ≠ t →
          alookup (walkAux (fun _ => false) ["g700"] 4 ["g700", "a", "b"] [] []).2.1 d = none :=
  walk_failure_caches_only_terminal (fun _ => false) ["g700"] ["g700", "a", "b"] (by decide)

/-!  Claim C8.  -/

/-- C8 failing input: the root is the directory g700 and the file resolves to
the location g700x/f, a sibling tree whose name merely extends the root's
name, with a repository marker at g700x.  The location does not lie under the
root, yet the containment test of the script — a character-level prefix test
of the rendered paths — accepts it, the walk finds the sibling repository,
the resolver answers with an upward-stepping relative path instead of the
absent answer, and the file enters the project map. -/
theorem outside_root_not_excluded :
    underRoot ["g700x", "f"] ["g700"] = false
    ∧ ("/g700".data).isPrefixOf ("/g700x/f".data) = true
    ∧ (find_git_project_for_file (fun d => decide (d = ["g700x", ".git"])) ["g700"]
        ["g700x", "f"] []).1 = some ("../g700x".data)
    ∧ (build_project_groups
        [{ cr_id := "X".data, patch_type := [], severity := [], description_first := [],
           description_full := [], files := ["../g700x/f".data] }]
        (fun d => decide (d = ["g700x", ".git"])) ["g700"] (fun _ => ["g700x", "f"])).1
      = [("../g700x".data, [("X".data, ["../g700x/f".data])])] := by decide

/-!  Claim C5.  -/

/-- Texts of the matched shape transform to the tag plus the stripped
capture (the capture stops at a newline, so a newline-free rest is captured
whole). -/
theorem gspMatch_decomp_eq (ws inner rest : Str)
    (hws : ∀ c ∈ ws, pyIsSpace c = true) (hinner : inner ≠ [])
    (hni : ∀ c ∈ inner, c ≠ ']') :
    gspMatch ("[Google Security Patch]".data ++ (ws ++ ('[' :: (inner ++ ']' :: rest))))
      = some (rest.takeWhile (fun c => c ≠ '\n')) := by
  have h23 : ("[Google Security Patch]".data : Str).length = 23 := by decide
  unfold gspMatch
  rw [if_pos (List.isPrefixOf_iff_prefix.mpr (List.prefix_append _ _))]
  rw [show (23 : Nat) = ("[Google Security Patch]".data : Str).length from h23.symm,
    List.drop_left]
  have hsp : pyIsSpace '[' = false := by decide
  rw [dropWhile_append_of_all hws, List.dropWhile_cons]
  simp only [hsp, Bool.false_eq_true, if_false]
  have htw : (inner ++ ']' :: rest).takeWhile (fun c => c ≠ ']') = inner := by
    rw [takeWhile_append_of_all (fun c hc => decide_eq_true (hni c hc))]
    simp [List.takeWhile_cons]
  have hdw2 : (inner ++ ']' :: rest).dropWhile (fun c => c ≠ ']') = ']' :: rest := by
    rw [dropWhile_append_of_all (fun c hc => decide_eq_true (hni c hc))]
    simp [List.dropWhile_cons]
  rw [htw, hdw2]
  cases inner with
  | nil => exact absurd rfl hinner
  | cons a t => rfl

/-- Every successful match arises from a text of the matched shape. -/
theorem gspMatch_some_decomp {d r : Str} (h : gspMatch d = some r) :
    ∃ ws inner rest : Str, (∀ c ∈ ws, pyIsSpace c = true) ∧ inner ≠ [] ∧
      (∀ c ∈ inner, c ≠ ']') ∧
      d = "[Google Security Patch]".data ++ (ws ++ ('[' :: (inner ++ ']' :: rest))) := by
  have h23 : ("[Google Security Patch]".data : Str).length = 23 := by decide
  unfold gspMatch at h
  split at h
  case isFalse => exact absurd h (by simp)
  case isTrue hp =>
    obtain ⟨tail, htail⟩ := List.isPrefixOf_iff_prefix.mp hp
    have hdrop : d.drop 23 = tail := by
      rw [← htail, ← h23, List.drop_left]
    rw [hdrop] at h
    split at h
    case h_2 => exact absurd h (by simp)
    case h_1 u heq =>
      split at h
      case h_1 => exact absurd h (by simp)
      case h_3 => exact absurd h (by simp)
      case h_2 a t rest heq2 heq3 =>
        refine ⟨tail.takeWhile pyIsSpace, a :: t, rest, ?_, by simp, ?_, ?_⟩
        · intro c hc; exact List.mem_takeWhile_imp hc
        · intro c hc
          have := List.mem_takeWhile_imp (heq2 ▸ hc)
          exact of_decide_eq_true this
        · have hu : u = a :: t ++ ']' :: rest := by
            rw [← heq2, ← heq3, List.takeWhile_append_dropWhile]
          rw [← htail]
          congr 1
          rw [← hu, ← heq, List.takeWhile_append_dropWhile]

/-- A transform that changed its input exhibits the matched decomposition. -/
theorem transform_changed_decomp {d : Str}
    (h : transform_description_for_title d ≠ d) :
    ∃ ws inner rest : Str, (∀ c ∈ ws, pyIsSpace c = true) ∧ inner ≠ [] ∧
      (∀ c ∈ inner, c ≠ ']') ∧
      d = "[Google Security Patch]".data ++ (ws ++ ('[' :: (inner ++ ']' :: rest))) := by
  unfold transform_description_for_title at h
  by_cases h0 : d = []
  · subst h0; simp at h
  · rw [if_neg h0] at h
    cases hg : gspMatch d with
    | none => rw [hg] at h; exact absurd rfl h
    | some r => exact gspMatch_some_decomp hg

/-- Counterexample to C5: a summary that is not of the claimed adjacent
two-bracket form (there is a space between the bracket groups) is still
transformed rather than passed through unchanged. -/
theorem gsp_passthrough_counterexample :
    ¬ gspClaimForm ("[Google Security Patch] [CVE-2024-0001]Null pointer fix".data)
    ∧ transform_description_for_title
        ("[Google Security Patch] [CVE-2024-0001]Null pointer fix".data)
      ≠ ("[Google Security Patch] [CVE-2024-0001]Null pointer fix".data) := by
  constructor
  · rintro ⟨inner, rest, h⟩
    exact absurd ⟨inner ++ ']' :: rest, h.symm⟩
      (by decide : ¬ (("[Google Security Patch][".data : Str)
        <+: "[Google Security Patch] [CVE-2024-0001]Null pointer fix".data))
  · decide

/-- C5 as amended: the transform rewrites exactly the summaries of the shape
"[Google Security Patch]" + optional whitespace + a non-empty bracket group
without closing brackets + rest, producing the tag, one space and the
stripped rest; every other summary passes through unchanged; and the summary
used in a title is the one of the lexicographically smallest identifier of
the CR group. -/
theorem gsp_transform_amended :
    (∀ ws inner rest : Str, (∀ c ∈ ws, pyIsSpace c = true) → inner ≠ [] →
      (∀ c ∈ inner, c ≠ ']') → (∀ c ∈ rest, c ≠ '\n') →
      transform_description_for_title
          ("[Google Security Patch]".data ++ (ws ++ ('[' :: (inner ++ ']' :: rest))))
        = "[Google Security Patch] ".data ++ pyStrip rest)
    ∧ (∀ d : Str,
        (¬ ∃ ws inner rest : Str, (∀ c ∈ ws, pyIsSpace c = true) ∧ inner ≠ [] ∧
          (∀ c ∈ inner, c ≠ ']') ∧
          d = "[Google Security Patch]".data ++ (ws ++ ('[' :: (inner ++ ']' :: rest)))) →
        transform_description_for_title d = d)
    ∧ (∀ tag g info, g ≠ [] → ∃ m, m ∈ g ∧ (∀ x ∈ g, strLe m x = true) ∧
        build_commit_title tag g info none none =
          ((('[' :: tag ++ [']']) ++ g.flatMap (fun c => '[' :: c ++ [']']))
            ++ (if transform_description_for_title (infoDescFirst info m) = [] then []
                else ' ' :: transform_description_for_title (infoDescFirst info m)))) := by
  refine ⟨?_, ?_, ?_⟩
  · intro ws inner rest hws hinner hni hnl
    have hne : ("[Google Security Patch]".data
        ++ (ws ++ ('[' :: (inner ++ ']' :: rest))) : Str) ≠ [] := by
      simp
    unfold transform_description_for_title
    rw [if_neg hne, gspMatch_decomp_eq ws inner rest hws hinner hni,
      takeWhile_all (fun c hc => decide_eq_true (hnl c hc))]
  · intro d hno
    by_contra hne
    exact hno (transform_changed_decomp hne)
  · intro tag g info hg
    refine ⟨(sortStrs g).headD [], (sortStrs_head_min hg).1, (sortStrs_head_min hg).2, ?_⟩
    unfold build_commit_title
    rw [if_neg hg]
    by_cases hsub :
        transform_description_for_title (infoDescFirst info ((sortStrs g).head?.getD [])) = []
    · simp [hsub]
    · simp [hsub]

/-- Witness for C5's amended statement. -/
theorem gsp_transform_amended_witness :
    transform_description_for_title
        ("[Google Security Patch]".data
          ++ (" ".data ++ ('[' :: ("CVE-2024-0001".data ++ ']' :: "Null pointer fix".data))))
      = "[Google Security Patch] ".data ++ pyStrip ("Null pointer fix".data)
    ∧ (∃ m, m ∈ ["B".data, "A".data] ∧ (∀ x ∈ ["B".data, "A".data], strLe m x = true) ∧
        build_commit_title ("P27".data) ["B".data, "A".data] [] none none =
          ((('[' :: "P27".data ++ [']'])
            ++ ["B".data, "A".data].flatMap (fun c => '[' :: c ++ [']']))
            ++ (if transform_description_for_title (infoDescFirst [] m) = [] then []
                else ' ' :: transform_description_for_title (infoDescFirst [] m)))) :=
  ⟨gsp_transform_amended.1 (" ".data) ("CVE-2024-0001".data) ("Null pointer fix".data)
      (by decide) (by decide) (by decide) (by decide),
    gsp_transform_amended.2.2 ("P27".data) ["B".data, "A".data] [] (by decide)⟩

/-!  Claim C10.  -/

/-- C10: title rendering is total on the edge cases: an empty CR group
renders as the bracketed tag alone (even when ordinal data is supplied), and
an empty transformed summary yields the concatenated bracket segments with
nothing before the optional ordinal marker. -/
theorem build_commit_title_edge_cases :
    (∀ tag info ri rt, build_commit_title tag [] info ri rt = '[' :: tag ++ [']'])
    ∧ (∀ tag g info (ri rt : Option Nat), g ≠ [] →
        transform_description_for_title (infoDescFirst info ((sortStrs g).head?.getD [])) = [] →
        build_commit_title tag g info ri rt =
          (('[' :: tag ++ [']']) ++ g.flatMap (fun c => '[' :: c ++ [']']))
            ++ (match ri, rt with
                | some i, some t =>
                  if 1 < t then " [".data ++ natChars i ++ ['/'] ++ natChars t ++ [']'] else []
                | _, _ => ([] : Str))) := by
  constructor
  · intro tag info ri rt
    unfold build_commit_title
    rw [if_pos rfl]
  · intro tag g info ri rt hg hsub
    unfold build_commit_title
    rw [if_neg hg]
    cases ri with
    | none => simp [hsub]
    | some i =>
      cases rt with
      | none => simp [hsub]
      | some t =>
        by_cases ht : 1 < t
        · simp [hsub, ht]
        · simp [hsub, ht]

/-- Witness for C10 at a concrete tag, group and ordinal pair. -/
theorem build_commit_title_edge_cases_witness :
    build_commit_title ("P27".data) [] [] (some 1) (some 3) = '[' :: "P27".data ++ [']']
    ∧ build_commit_title ("P27".data) ["A".data] [] (some 1) (some 3) =
        (('[' :: "P27".data ++ [']']) ++ ["A".data].flatMap (fun c => '[' :: c ++ [']']))
          ++ (match (some 1 : Option Nat), (some 3 : Option Nat) with
              | some i, some t =>
                if 1 < t then " [".data ++ natChars i ++ ['/'] ++ natChars t ++ [']'] else []
              | _, _ => ([] : Str)) :=
  ⟨build_commit_title_edge_cases.1 ("P27".data) [] (some 1) (some 3),
    build_commit_title_edge_cases.2 ("P27".data) ["A".data] [] (some 1) (some 3)
      (by decide) (by decide)⟩

/-!  Claim C4.  -/

instance relProjIsTotal :
    IsTotal (Nat × CommitPlan) (fun a b => strLe a.2.project b.2.project = true) :=
  ⟨fun _ _ => strLe_total _ _⟩

instance relProjIsTrans :
    IsTrans (Nat × CommitPlan) (fun a b => strLe a.2.project b.2.project = true) :=
  ⟨fun _ _ _ => strLe_trans⟩

theorem groupPairs_fst_nodup (plans : List CommitPlan) (g : List Str) :
    ((groupPairs plans g).map (fun q => q.1)).Nodup := by
  have hsub : ((groupPairs plans g).map (fun q => q.1)).Sublist
      (plans.enum.map (fun q => q.1)) :=
    List.Sublist.map _ (List.filter_sublist _)
  have he : plans.enum.map (fun q : Nat × CommitPlan => q.1) = List.range plans.length :=
    List.enum_map_fst plans
  rw [he] at hsub
  exact hsub.nodup (List.nodup_range _)

theorem groupPairsSorted_perm (plans : List CommitPlan) (g : List Str) :
    (groupPairsSorted plans g).Perm (groupPairs plans g) :=
  List.perm_insertionSort _ _

theorem groupPairsSorted_fst_nodup (plans : List CommitPlan) (g : List Str) :
    ((groupPairsSorted plans g).map (fun q => q.1)).Nodup :=
  (((groupPairsSorted_perm plans g).map (fun q : Nat × CommitPlan => q.1)).nodup_iff).mpr
    (groupPairs_fst_nodup plans g)

theorem mem_groupPairs {plans : List CommitPlan} {g : List Str} {x : Nat × CommitPlan} :
    x ∈ groupPairs plans g ↔ x ∈ plans.enum ∧ x.2.group_crs = g := by
  simp [groupPairs, List.mem_filter]

theorem mem_groupPairsSorted {plans : List CommitPlan} {g : List Str} {x : Nat × CommitPlan} :
    x ∈ groupPairsSorted plans g ↔ x ∈ plans.enum ∧ x.2.group_crs = g := by
  rw [(groupPairsSorted_perm plans g).mem_iff]; exact mem_groupPairs

theorem groupPairsSorted_sorted (plans : List CommitPlan) (g : List Str) :
    List.Sorted (fun a b : Nat × CommitPlan => strLe a.2.project b.2.project = true)
      (groupPairsSorted plans g) :=
  List.sorted_insertionSort _ _

theorem groupPairsSorted_length (plans : List CommitPlan) (g : List Str) :
    (groupPairsSorted plans g).length = (groupPairs plans g).length :=
  (groupPairsSorted_perm plans g).length_eq

/-- Two pairs of one group at different positions carry different projects
(under the global distinct-projects-within-a-group hypothesis). -/
theorem groupPairs_proj_ne {plans : List CommitPlan}
    (hdp : List.Pairwise (fun p q => p.group_crs = q.group_crs → p.project ≠ q.project) plans)
    {g : List Str} {x y : Nat × CommitPlan}
    (hx : x ∈ groupPairs plans g) (hy : y ∈ groupPairs plans g) (hne : x.1 ≠ y.1) :
    x.2.project ≠ y.2.project := by
  obtain ⟨hxe, hxg⟩ := mem_groupPairs.mp hx
  obtain ⟨hye, hyg⟩ := mem_groupPairs.mp hy
  obtain ⟨hxl, hxv⟩ := List.getElem?_eq_some.mp (List.mem_enum_iff_getElem?.mp hxe)
  obtain ⟨hyl, hyv⟩ := List.getElem?_eq_some.mp (List.mem_enum_iff_getElem?.mp hye)
  have hpw := List.pairwise_iff_get.mp hdp
  rcases Nat.lt_or_ge x.1 y.1 with h | h
  · have hr := hpw ⟨x.1, hxl⟩ ⟨y.1, hyl⟩ (Fin.mk_lt_mk.mpr h)
    simp only [List.get_eq_getElem, hxv, hyv] at hr
    exact hr (hxg.trans hyg.symm)
  · have hlt : y.1 < x.1 := lt_of_le_of_ne h (Ne.symm hne)
    have hr := hpw ⟨y.1, hyl⟩ ⟨x.1, hxl⟩ (Fin.mk_lt_mk.mpr hlt)
    simp only [List.get_eq_getElem, hxv, hyv] at hr
    exact (hr (hyg.trans hxg.symm)).symm

/-- The sorted group list holds each member exactly at the position that its
original index occupies in the sorted index list. -/
theorem sorted_get_indexOf {plans : List CommitPlan} {g : List Str} {x : Nat × CommitPlan}
    (hx : x ∈ groupPairsSorted plans g) :
    ∃ h : ((groupPairsSorted plans g).map (fun q => q.1)).indexOf x.1
        < (groupPairsSorted plans g).length,
      (groupPairsSorted plans g).get
        ⟨((groupPairsSorted plans g).map (fun q => q.1)).indexOf x.1, h⟩ = x := by
  have hmem : x.1 ∈ (groupPairsSorted plans g).map (fun q => q.1) :=
    List.mem_map.mpr ⟨x, hx, rfl⟩
  have ha : ((groupPairsSorted plans g).map (fun q => q.1)).indexOf x.1
      < ((groupPairsSorted plans g).map (fun q => q.1)).length :=
    List.indexOf_lt_length.mpr hmem
  have ha' : ((groupPairsSorted plans g).map (fun q => q.1)).indexOf x.1
      < (groupPairsSorted plans g).length := by
    rwa [List.length_map] at ha
  refine ⟨ha', ?_⟩
  have h1 : ((groupPairsSorted plans g).map (fun q => q.1)).get ⟨_, ha⟩ = x.1 :=
    List.indexOf_get ha
  have h2 : ((groupPairsSorted plans g).map (fun q => q.1)).get ⟨_, ha⟩
      = ((groupPairsSorted plans g).get ⟨_, ha'⟩).1 := List.get_map _
  exact List.inj_on_of_nodup_map (groupPairsSorted_fst_nodup plans g)
    (List.get_mem _ _ _) hx (by rw [← h2, h1])

/-- Conversely, the original index of the member at a position of the sorted
group list occupies exactly that position in the sorted index list. -/
theorem sorted_indexOf_get {plans : List CommitPlan} {g : List Str} (pos : Nat)
    (hpos : pos < (groupPairsSorted plans g).length) :
    ((groupPairsSorted plans g).map (fun q => q.1)).indexOf
      ((groupPairsSorted plans g).get ⟨pos, hpos⟩).1 = pos := by
  have hx : (groupPairsSorted plans g).get ⟨pos, hpos⟩ ∈ groupPairsSorted plans g :=
    List.get_mem _ _ _
  obtain ⟨h, hget⟩ := sorted_get_indexOf hx
  have hnodupL : (groupPairsSorted plans g).Nodup :=
    (groupPairsSorted_fst_nodup plans g).of_map
  exact congrArg Fin.val (hnodupL.get_inj_iff.mp hget)

/-- Sorted index order coincides with the strict project order for two group
members with different projects. -/
theorem sorted_indexOf_lt_iff {plans : List CommitPlan} {g : List Str}
    {x y : Nat × CommitPlan}
    (hx : x ∈ groupPairsSorted plans g) (hy : y ∈ groupPairsSorted plans g)
    (hne : x.2.project ≠ y.2.project) :
    ((groupPairsSorted plans g).map (fun q => q.1)).indexOf x.1
        < ((groupPairsSorted plans g).map (fun q => q.1)).indexOf y.1
    ↔ strLe x.2.project y.2.project = true := by
  obtain ⟨hax, hgx⟩ := sorted_get_indexOf hx
  obtain ⟨hay, hgy⟩ := sorted_get_indexOf hy
  constructor
  · intro hlt
    have hr := (groupPairsSorted_sorted plans g).rel_get_of_lt
      (a := ⟨_, hax⟩) (b := ⟨_, hay⟩) (Fin.mk_lt_mk.mpr hlt)
    rw [hgx, hgy] at hr
    exact hr
  · intro hle
    rcases Nat.lt_trichotomy
        (((groupPairsSorted plans g).map (fun q => q.1)).indexOf x.1)
        (((groupPairsSorted plans g).map (fun q => q.1)).indexOf y.1) with h | h | h
    · exact h
    · exfalso
      apply hne
      have : (groupPairsSorted plans g).get ⟨_, hax⟩ = (groupPairsSorted plans g).get ⟨_, hay⟩ := by
        congr 1
        exact Fin.ext h
      rw [hgx, hgy] at this
      rw [this]
    · exfalso
      have hr := (groupPairsSorted_sorted plans g).rel_get_of_lt
        (a := ⟨_, hay⟩) (b := ⟨_, hax⟩) (Fin.mk_lt_mk.mpr h)
      rw [hgx, hgy] at hr
      exact hne (strLe_antisymm hle hr)

theorem strLe_nil_right {a : Str} (h : strLe a [] = true) : a = [] := by
  cases a with
  | nil => rfl
  | cons c t => simp [strLe] at h

theorem enum_fst_inj {plans : List CommitPlan} {x y : Nat × CommitPlan}
    (hx : x ∈ plans.enum) (hy : y ∈ plans.enum) (h : x.1 = y.1) : x = y := by
  obtain ⟨i, p⟩ := x
  obtain ⟨j, q⟩ := y
  simp only at h
  subst h
  have h1 := List.mem_enum_iff_getElem?.mp hx
  have h2 := List.mem_enum_iff_getElem?.mp hy
  rw [h1] at h2
  exact congrArg _ (Option.some.inj h2)

/-- Let-free form of assign_repo_index. -/
theorem assign_repo_index_eq (plans : List CommitPlan) :
    assign_repo_index plans = plans.enum.map (fun ip =>
      { ip.2 with
        repo_index :=
          some (((groupPairsSorted plans ip.2.group_crs).map (fun q => q.1)).indexOf ip.1 + 1),
        repo_total := some ((groupPairs plans ip.2.group_crs).length) }) := rfl

/-- C4: with the CR groups of the plans appearing at most once per repository
path, ordinal assignment hands every plan the total size of its CR-group
family and a 1-based marker; markers within one family rise exactly with the
project path order, cover 1..k, give the root repository (empty path) the
first marker, and a family of size one renders its title without any
multiplicity marker while a family of size k>1 appends its marker. -/
theorem assign_repo_index_spec (plans : List CommitPlan)
    (hdp : List.Pairwise (fun p q => p.group_crs = q.group_crs → p.project ≠ q.project) plans) :
    (∀ p' ∈ assign_repo_index plans,
        p'.repo_total = some ((groupPairs plans p'.group_crs).length)
        ∧ ∃ k, p'.repo_index = some k ∧ 1 ≤ k ∧ k ≤ (groupPairs plans p'.group_crs).length)
    ∧ (∀ p' q', p' ∈ assign_repo_index plans → q' ∈ assign_repo_index plans →
        p'.group_crs = q'.group_crs → p'.project ≠ q'.project →
        (strLe p'.project q'.project = true ↔
          ∃ a b, p'.repo_index = some a ∧ q'.repo_index = some b ∧ a < b))
    ∧ (∀ p' ∈ assign_repo_index plans, p'.project = [] → p'.repo_index = some 1)
    ∧ (∀ g m, 1 ≤ m → m ≤ (groupPairs plans g).length →
        ∃ p' ∈ assign_repo_index plans, p'.group_crs = g ∧ p'.repo_index = some m)
    ∧ (∀ p' ∈ assign_repo_index plans, (groupPairs plans p'.group_crs).length = 1 →
        ∀ tag info, build_commit_title tag p'.group_crs info p'.repo_index p'.repo_total
          = build_commit_title tag p'.group_crs info none none)
    ∧ (∀ p' ∈ assign_repo_index plans, ∀ tag info,
        1 < (groupPairs plans p'.group_crs).length →
        ∃ a, p'.repo_index = some a ∧ p'.repo_total = some ((groupPairs plans p'.group_crs).length)
          ∧ (p'.group_crs ≠ [] →
            build_commit_title tag p'.group_crs info p'.repo_index p'.repo_total
              = build_commit_title tag p'.group_crs info none none
                ++ (" [".data ++ natChars a ++ ['/']
                    ++ natChars ((groupPairs plans p'.group_crs).length) ++ [']']))) := by
  rw [assign_repo_index_eq]
  refine ⟨?_, ?_, ?_, ?_, ?_, ?_⟩
  · rintro p' hp'
    obtain ⟨ip, hip, rfl⟩ := List.mem_map.mp hp'
    dsimp only
    refine ⟨rfl, _, rfl, Nat.le_add_left 1 _, ?_⟩
    have hmem : ip ∈ groupPairsSorted plans ip.2.group_crs :=
      mem_groupPairsSorted.mpr ⟨hip, rfl⟩
    obtain ⟨h, _⟩ := sorted_get_indexOf hmem
    have := groupPairsSorted_length plans ip.2.group_crs
    omega
  · rintro p' q' hp' hq' hgq hpq
    obtain ⟨ip, hip, rfl⟩ := List.mem_map.mp hp'
    obtain ⟨jq, hjq, rfl⟩ := List.mem_map.mp hq'
    dsimp only at hgq hpq ⊢
    have hxm : ip ∈ groupPairsSorted plans ip.2.group_crs :=
      mem_groupPairsSorted.mpr ⟨hip, rfl⟩
    have hym : jq ∈ groupPairsSorted plans ip.2.group_crs :=
      mem_groupPairsSorted.mpr ⟨hjq, hgq.symm⟩
    have hiff := @sorted_indexOf_lt_iff plans ip.2.group_crs _ _ hxm hym hpq
    rw [← hgq]
    constructor
    · intro hle
      refine ⟨_, _, rfl, rfl, ?_⟩
      have := hiff.mpr hle
      omega
    · rintro ⟨a, b, ha, hb, hab⟩
      apply hiff.mp
      have ha' := Option.some.inj ha
      have hb' := Option.some.inj hb
      omega
  · rintro p' hp' hroot
    obtain ⟨ip, hip, rfl⟩ := List.mem_map.mp hp'
    simp only at hroot ⊢
    have hxm : ip ∈ groupPairsSorted plans ip.2.group_crs :=
      mem_groupPairsSorted.mpr ⟨hip, rfl⟩
    obtain ⟨hax, hgx⟩ := sorted_get_indexOf hxm
    congr 1
    have hidx0 :
        ((groupPairsSorted plans ip.2.group_crs).map (fun q => q.1)).indexOf ip.1 = 0 := by
      by_contra hne0
      have h0 : 0 < (groupPairsSorted plans ip.2.group_crs).length :=
        lt_of_le_of_lt (Nat.zero_le _) hax
      have hrel := (groupPairsSorted_sorted plans ip.2.group_crs).rel_get_of_lt
        (a := ⟨0, h0⟩) (b := ⟨_, hax⟩) (Fin.mk_lt_mk.mpr (Nat.pos_of_ne_zero hne0))
      rw [hgx] at hrel
      rw [hroot] at hrel
      have hy0 := strLe_nil_right hrel
      set y := (groupPairsSorted plans ip.2.group_crs).get ⟨0, h0⟩ with hy
      have hyx : y ≠ ip := by
        intro he
        apply hne0
        have := @sorted_indexOf_get plans ip.2.group_crs 0 h0
        rw [← hy] at this
        rw [he] at this
        omega
      have hy1 : y.1 ≠ ip.1 := by
        intro he
        exact hyx (List.inj_on_of_nodup_map (groupPairsSorted_fst_nodup plans ip.2.group_crs)
          (List.get_mem _ _ _) hxm he)
      have hprojne := groupPairs_proj_ne hdp
        ((groupPairsSorted_perm plans ip.2.group_crs).mem_iff.mp (hy ▸ List.get_mem _ _ _))
        ((groupPairsSorted_perm plans ip.2.group_crs).mem_iff.mp hxm) hy1
      rw [hy0, hroot] at hprojne
      exact hprojne rfl
    omega
  · rintro g m hm1 hm2
    have hpos : m - 1 < (groupPairsSorted plans g).length := by
      rw [groupPairsSorted_length]
      omega
    set x := (groupPairsSorted plans g).get ⟨m - 1, hpos⟩ with hx
    have hxm : x ∈ groupPairsSorted plans g := hx ▸ List.get_mem _ _ _
    obtain ⟨hxe, hxg⟩ := mem_groupPairsSorted.mp hxm
    refine ⟨_, List.mem_map.mpr ⟨x, hxe, rfl⟩, by simpa using hxg, ?_⟩
    simp only
    congr 1
    have := @sorted_indexOf_get plans g (m - 1) hpos
    rw [← hx] at this
    rw [hxg]
    omega
  · rintro p' hp' hk1 tag info
    obtain ⟨ip, hip, rfl⟩ := List.mem_map.mp hp'
    simp only at hk1 ⊢
    rw [hk1]
    unfold build_commit_title
    by_cases hg : ip.2.group_crs = []
    · rw [if_pos hg, if_pos hg]
    · rw [if_neg hg, if_neg hg]
      simp
  · rintro p' hp' tag info hk
    obtain ⟨ip, hip, rfl⟩ := List.mem_map.mp hp'
    dsimp only at hk ⊢
    refine ⟨_, rfl, rfl, fun hg => ?_⟩
    unfold build_commit_title
    rw [if_neg hg, if_neg hg]
    simp [hk]

/-- Witness for C4: in a three-plan batch the singleton CR-group family
renders its title without a multiplicity marker. -/
theorem assign_repo_index_spec_witness :
    build_commit_title ("P".data) ["B".data] [] (some 1) (some 1)
      = build_commit_title ("P".data) ["B".data] [] none none :=
  (assign_repo_index_spec
      [{ project := "b".data, group_crs := ["A".data], all_files := [], cr_files := [],
         repo_index := none, repo_total := none },
       { project := [], group_crs := ["A".data], all_files := [], cr_files := [],
         repo_index := none, repo_total := none },
       { project := "b".data, group_crs := ["B".data], all_files := [], cr_files := [],
         repo_index := none, repo_total := none }]
      (by decide)).2.2.2.2.1
    { project := "b".data, group_crs := ["B".data], all_files := [], cr_files := [],
      repo_index := some 1, repo_total := some 1 }
    (by decide) (by decide) ("P".data) []

/-!  Claims C1 and C2: the connected-component grouping.  -/

theorem mem_setAdd {l : List Str} {x b : Str} : b ∈ setAdd l x ↔ b ∈ l ∨ b = x := by
  unfold setAdd
  by_cases hx : x ∈ l
  · simp only [if_pos hx]
    constructor
    · exact fun h => Or.inl h
    · rintro (h | rfl)
      · exact h
      · exact hx
  · simp [if_neg hx]

theorem setAdd_nodup {l : List Str} {x : Str} (h : l.Nodup) : (setAdd l x).Nodup := by
  unfold setAdd
  by_cases hx : x ∈ l
  · simpa [hx]
  · rw [if_neg hx]
    exact List.Nodup.append h (List.nodup_singleton x)
      (fun a ha hax => hx ((List.mem_singleton.mp hax) ▸ ha))

theorem alookup_eq_none {α β : Type} [DecidableEq α] {l : List (α × β)} {a : α} :
    alookup l a = none ↔ a ∉ l.map (fun e => e.1) := by
  induction l with
  | nil => simp [alookup]
  | cons e rest ih =>
    obtain ⟨k, v⟩ := e
    by_cases he : k = a
    · simp [alookup, he]
    · simp [alookup, he, ih, Ne.symm he]

theorem alookup_mem {α β : Type} [DecidableEq α] {l : List (α × β)} {a : α} {v : β}
    (h : alookup l a = some v) : (a, v) ∈ l := by
  induction l with
  | nil => simp [alookup] at h
  | cons e rest ih =>
    obtain ⟨k, w⟩ := e
    by_cases he : k = a
    · subst he
      simp only [alookup, if_pos rfl] at h
      have hv : w = v := Option.some.inj h
      subst hv
      exact List.mem_cons_self _ _
    · simp only [alookup, if_neg he] at h
      exact List.mem_cons_of_mem _ (ih h)

theorem alookup_of_mem_of_nodup {α β : Type} [DecidableEq α] {l : List (α × β)}
    (hnd : (l.map (fun e => e.1)).Nodup) {a : α} {v : β}
    (h : (a, v) ∈ l) : alookup l a = some v := by
  induction l with
  | nil => simp at h
  | cons e rest ih =>
    obtain ⟨k, w⟩ := e
    simp only [List.map_cons, List.nodup_cons] at hnd
    rcases List.mem_cons.mp h with he | hmem
    · injection he with h1 h2
      subst h1
      subst h2
      simp [alookup]
    · have hne : k ≠ a := by
        intro hka
        exact hnd.1 (hka ▸ List.mem_map.mpr ⟨(a, v), hmem, rfl⟩)
      simp [alookup, hne, ih hnd.2 hmem]

theorem adjNbrs_init (crIds : List Str) (a : Str) :
    adjNbrs (crIds.map (fun c => (c, ([] : List Str)))) a = [] := by
  induction crIds with
  | nil => rfl
  | cons c rest ih =>
    unfold adjNbrs alookup
    by_cases hc : c = a
    · simp [hc]
    · simpa [hc] using ih

theorem adjInsert_keys (adj : AdjMap) (x y : Str) :
    (adjInsert adj x y).map (fun e => e.1) = adj.map (fun e => e.1) := by
  unfold adjInsert
  rw [List.map_map]
  apply List.map_congr_left
  intro e _
  by_cases he : e.1 = x <;> simp [he]

theorem alookup_adjInsert (adj : AdjMap) (x y a : Str) :
    alookup (adjInsert adj x y) a
      = (alookup adj a).map (fun s => if a = x then setAdd s y else s) := by
  induction adj with
  | nil => simp [adjInsert, alookup]
  | cons e rest ih =>
    obtain ⟨k, v⟩ := e
    show alookup ((if k = x then (k, setAdd v y) else (k, v)) :: adjInsert rest x y) a = _
    by_cases hkx : k = x
    · rw [if_pos hkx]
      by_cases hka : k = a
      · have hax : a = x := hka ▸ hkx
        simp [alookup, hka, hax]
      · simp [alookup, hka, ih]
    · rw [if_neg hkx]
      by_cases hka : k = a
      · have hax : a ≠ x := fun h => hkx (hka.trans h)
        simp [alookup, hka, hax]
      · simp [alookup, hka, ih]

theorem mem_adjInsert {adj : AdjMap} {x y a b : Str} :
    b ∈ adjNbrs (adjInsert adj x y) a ↔
      b ∈ adjNbrs adj a ∨ (a = x ∧ b = y ∧ x ∈ adj.map (fun e => e.1)) := by
  unfold adjNbrs
  rw [alookup_adjInsert]
  cases hl : alookup adj a with
  | none =>
    simp only [Option.map_none, Option.getD_none]
    constructor
    · intro h; exact absurd h (List.not_mem_nil b)
    · rintro (h | ⟨rfl, rfl, hk⟩)
      · exact h
      · exact absurd hk (alookup_eq_none.mp hl)
  | some s =>
    simp only [Option.map_some, Option.getD_some]
    by_cases hax : a = x
    · subst hax
      have hk : a ∈ adj.map (fun e => e.1) := by
        by_contra hnk
        rw [alookup_eq_none.mpr hnk] at hl
        exact Option.noConfusion hl
      simp [mem_setAdd, hk]
    · simp [hax]

theorem addPairTo_keys (adj : AdjMap) (x y : Str) :
    (addPairTo adj x y).map (fun e => e.1) = adj.map (fun e => e.1) := by
  unfold addPairTo
  rw [adjInsert_keys, adjInsert_keys]

theorem mem_addPairTo {adj : AdjMap} {x y a b : Str} :
    b ∈ adjNbrs (addPairTo adj x y) a ↔
      b ∈ adjNbrs adj a ∨ (a = x ∧ b = y ∧ x ∈ adj.map (fun e => e.1))
        ∨ (a = y ∧ b = x ∧ y ∈ adj.map (fun e => e.1)) := by
  unfold addPairTo
  rw [mem_adjInsert, mem_adjInsert, adjInsert_keys]
  tauto

theorem foldl_addPairTo_keys (c : Str) (rest : List Str) (adj : AdjMap) :
    (rest.foldl (fun acc d => addPairTo acc c d) adj).map (fun e => e.1)
      = adj.map (fun e => e.1) := by
  induction rest generalizing adj with
  | nil => rfl
  | cons d ds ih => rw [List.foldl_cons, ih, addPairTo_keys]

theorem mem_foldl_addPairTo {c : Str} {rest : List Str} {adj : AdjMap} {a b : Str} :
    b ∈ adjNbrs (rest.foldl (fun acc d => addPairTo acc c d) adj) a ↔
      b ∈ adjNbrs adj a
        ∨ (a = c ∧ b ∈ rest ∧ c ∈ adj.map (fun e => e.1))
        ∨ (a ∈ rest ∧ b = c ∧ a ∈ adj.map (fun e => e.1)) := by
  induction rest generalizing adj with
  | nil => simp
  | cons d ds ih =>
    rw [List.foldl_cons, ih, mem_addPairTo, addPairTo_keys]
    constructor
    · rintro ((h | ⟨rfl, rfl, hk⟩ | ⟨rfl, rfl, hk⟩) | ⟨rfl, hb, hk⟩ | ⟨ha, rfl, hk⟩)
      · exact Or.inl h
      · exact Or.inr (Or.inl ⟨rfl, List.mem_cons_self _ _, hk⟩)
      · exact Or.inr (Or.inr ⟨List.mem_cons_self _ _, rfl, hk⟩)
      · exact Or.inr (Or.inl ⟨rfl, List.mem_cons_of_mem _ hb, hk⟩)
      · exact Or.inr (Or.inr ⟨List.mem_cons_of_mem _ ha, rfl, hk⟩)
    · rintro (h | ⟨rfl, hb, hk⟩ | ⟨ha, rfl, hk⟩)
      · exact Or.inl (Or.inl h)
      · rcases List.mem_cons.mp hb with rfl | hb'
        · exact Or.inl (Or.inr (Or.inl ⟨rfl, rfl, hk⟩))
        · exact Or.inr (Or.inl ⟨rfl, hb', hk⟩)
      · rcases List.mem_cons.mp ha with rfl | ha'
        · exact Or.inl (Or.inr (Or.inr ⟨rfl, rfl, hk⟩))
        · exact Or.inr (Or.inr ⟨ha', rfl, hk⟩)

theorem addPairs_keys (crs : List Str) (adj : AdjMap) :
    (addPairs crs adj).map (fun e => e.1) = adj.map (fun e => e.1) := by
  induction crs generalizing adj with
  | nil => rfl
  | cons c ds ih => rw [addPairs, ih, foldl_addPairTo_keys]

theorem mem_addPairs {crs : List Str} (hnd : crs.Nodup) {adj : AdjMap} {a b : Str} :
    b ∈ adjNbrs (addPairs crs adj) a ↔
      b ∈ adjNbrs adj a
        ∨ (a ∈ crs ∧ b ∈ crs ∧ a ≠ b ∧ a ∈ adj.map (fun e => e.1)) := by
  induction crs generalizing adj with
  | nil => simp [addPairs]
  | cons c ds ih =>
    obtain ⟨hc, hds⟩ := List.nodup_cons.mp hnd
    rw [addPairs, ih hds, mem_foldl_addPairTo, foldl_addPairTo_keys]
    constructor
    · rintro ((h | ⟨rfl, hb, hk⟩ | ⟨ha, rfl, hk⟩) | ⟨ha, hb, hne, hk⟩)
      · exact Or.inl h
      · exact Or.inr ⟨List.mem_cons_self _ _, List.mem_cons_of_mem _ hb,
          fun he => hc (he ▸ hb), hk⟩
      · exact Or.inr ⟨List.mem_cons_of_mem _ ha, List.mem_cons_self _ _,
          fun he => hc (he ▸ ha), hk⟩
      · exact Or.inr ⟨List.mem_cons_of_mem _ ha, List.mem_cons_of_mem _ hb, hne, hk⟩
    · rintro (h | ⟨ha, hb, hne, hk⟩)
      · exact Or.inl (Or.inl h)
      · rcases List.mem_cons.mp ha with rfl | ha' <;> rcases List.mem_cons.mp hb with rfl | hb'
        · exact absurd rfl hne
        · exact Or.inl (Or.inr (Or.inl ⟨rfl, hb', hk⟩))
        · exact Or.inl (Or.inr (Or.inr ⟨ha', rfl, hk⟩))
        · exact Or.inr ⟨ha', hb', hne, hk⟩

theorem one_lt_length_of_mem_ne {l : List Str} {a b : Str}
    (ha : a ∈ l) (hb : b ∈ l) (hne : a ≠ b) : 1 < l.length := by
  cases l with
  | nil => simp at ha
  | cons x xs =>
    cases xs with
    | nil =>
      rcases List.mem_singleton.mp ha with rfl
      rcases List.mem_singleton.mp hb with rfl
      exact absurd rfl hne
    | cons y ys => simp [List.length]

theorem alookup_ftcAdd (ftc : List (Str × List Str)) (f cr g : Str) :
    alookup (ftcAdd ftc f cr) g
      = if g = f then some ((alookup ftc f).getD [] ++ [cr]) else alookup ftc g := by
  induction ftc with
  | nil =>
    by_cases hgf : g = f
    · simp [ftcAdd, alookup, hgf]
    · simp [ftcAdd, alookup, hgf, Ne.symm hgf]
  | cons e rest ih =>
    obtain ⟨k, crs⟩ := e
    unfold ftcAdd
    by_cases hkf : k = f
    · rw [if_pos hkf]
      subst hkf
      by_cases hkg : k = g
      · subst hkg
        simp [alookup]
      · simp [alookup, hkg, Ne.symm hkg]
    · rw [if_neg hkf]
      by_cases hkg : k = g
      · subst hkg
        simp [alookup, hkf]
      · simp [alookup, hkg, hkf, ih]

theorem ftcAdd_keys (ftc : List (Str × List Str)) (f cr : Str) :
    (ftcAdd ftc f cr).map (fun e => e.1)
      = if f ∈ ftc.map (fun e => e.1) then ftc.map (fun e => e.1)
        else ftc.map (fun e => e.1) ++ [f] := by
  induction ftc with
  | nil => simp [ftcAdd]
  | cons e rest ih =>
    obtain ⟨k, crs⟩ := e
    unfold ftcAdd
    by_cases hkf : k = f
    · rw [if_pos hkf]
      subst hkf
      simp
    · rw [if_neg hkf]
      have hfk : f ≠ k := fun h => hkf h.symm
      by_cases hf : f ∈ rest.map (fun e => e.1)
      · simp [ih, hf, hfk]
      · simp [ih, hf, hfk]

theorem ftcAdd_keys_nodup {ftc : List (Str × List Str)}
    (h : (ftc.map (fun e => e.1)).Nodup) (f cr : Str) :
    ((ftcAdd ftc f cr).map (fun e => e.1)).Nodup := by
  rw [ftcAdd_keys]
  by_cases hf : f ∈ ftc.map (fun e => e.1)
  · simpa [hf]
  · rw [if_neg hf]
    exact List.Nodup.append h (List.nodup_singleton f)
      (fun a ha hax => hf ((List.mem_singleton.mp hax) ▸ ha))

/-- Inner loop of the inverted-index construction: appending one CR under
every file of its (duplicate-free) file list. -/
theorem inner_ftc_fold_lookup (files : List Str) (hnd : files.Nodup) (cr : Str)
    (acc : List (Str × List Str)) (f : Str) :
    (alookup (files.foldl (fun m g => ftcAdd m g cr) acc) f).getD []
      = (alookup acc f).getD [] ++ (if f ∈ files then [cr] else []) := by
  induction files generalizing acc with
  | nil => simp
  | cons g gs ih =>
    obtain ⟨hg, hgs⟩ := List.nodup_cons.mp hnd
    rw [List.foldl_cons, ih hgs]
    by_cases hfg : f = g
    · subst hfg
      have hnf : f ∉ gs := hg
      simp [alookup_ftcAdd, hnf]
    · simp only [alookup_ftcAdd, if_neg hfg]
      by_cases hfgs : f ∈ gs
      · simp [hfgs, List.mem_cons, hfg]
      · simp [hfgs, List.mem_cons, hfg]

theorem inner_ftc_fold_keys_nodup {acc : List (Str × List Str)}
    (h : (acc.map (fun e => e.1)).Nodup) (files : List Str) (cr : Str) :
    (((files.foldl (fun m g => ftcAdd m g cr) acc)).map (fun e => e.1)).Nodup := by
  induction files generalizing acc with
  | nil => exact h
  | cons g gs ih => exact ih (ftcAdd_keys_nodup h g cr)

/-- The inverted index maps every file to the CR keys whose file set holds
it, in ledger order. -/
theorem buildFileToCrs_lookup (crF : CrFilesMap) (hfnd : ∀ e ∈ crF, e.2.Nodup) (f : Str) :
    (alookup (buildFileToCrs crF) f).getD []
      = (crF.filter (fun e => decide (f ∈ e.2))).map (fun e => e.1) := by
  suffices h : ∀ (entries : List (Str × List Str)), (∀ e ∈ entries, e.2.Nodup) →
      ∀ acc : List (Str × List Str),
      (alookup (entries.foldl (fun ftc e => e.2.foldl (fun m g => ftcAdd m g e.1) ftc) acc) f).getD []
        = (alookup acc f).getD [] ++ (entries.filter (fun e => decide (f ∈ e.2))).map (fun e => e.1) by
    have := h crF hfnd []
    simpa [buildFileToCrs, alookup] using this
  intro entries hnd
  induction entries with
  | nil => simp
  | cons e rest ih =>
    intro acc
    rw [List.foldl_cons, ih (fun x hx => hnd x (List.mem_cons_of_mem _ hx))]
    rw [inner_ftc_fold_lookup e.2 (hnd e (List.mem_cons_self _ _)) e.1 acc f]
    by_cases hfe : f ∈ e.2
    · simp [hfe]
    · simp [hfe]

theorem buildFileToCrs_keys_nodup (crF : CrFilesMap) :
    ((buildFileToCrs crF).map (fun e => e.1)).Nodup := by
  suffices h : ∀ (entries : List (Str × List Str)) (acc : List (Str × List Str)),
      (acc.map (fun e => e.1)).Nodup →
      (((entries.foldl (fun ftc e => e.2.foldl (fun m g => ftcAdd m g e.1) ftc) acc)).map
        (fun e => e.1)).Nodup by
    exact h crF [] (by simp)
  intro entries
  induction entries with
  | nil => exact fun acc h => h
  | cons e rest ih =>
    intro acc hacc
    exact ih _ (inner_ftc_fold_keys_nodup hacc e.2 e.1)

theorem buildAdj_fold_keys (entries : List (Str × List Str)) (adj : AdjMap) :
    ((entries.foldl (fun adj e => if 1 < e.2.length then addPairs e.2 adj else adj) adj).map
      (fun e => e.1)) = adj.map (fun e => e.1) := by
  induction entries generalizing adj with
  | nil => rfl
  | cons e rest ih =>
    rw [List.foldl_cons, ih]
    by_cases hg : 1 < e.2.length
    · rw [if_pos hg, addPairs_keys]
    · rw [if_neg hg]

theorem mem_buildAdj_fold {entries : List (Str × List Str)}
    (hnd : ∀ e ∈ entries, e.2.Nodup) {adj : AdjMap} {a b : Str} :
    b ∈ adjNbrs (entries.foldl (fun adj e => if 1 < e.2.length then addPairs e.2 adj else adj) adj) a
      ↔ b ∈ adjNbrs adj a
        ∨ ∃ e, e ∈ entries ∧ a ∈ e.2 ∧ b ∈ e.2 ∧ a ≠ b ∧ a ∈ adj.map (fun x => x.1) := by
  induction entries generalizing adj with
  | nil => simp
  | cons e rest ih =>
    rw [List.foldl_cons]
    by_cases hg : 1 < e.2.length
    · rw [if_pos hg, ih (fun x hx => hnd x (List.mem_cons_of_mem _ hx)),
        mem_addPairs (hnd e (List.mem_cons_self _ _)), addPairs_keys]
      constructor
      · rintro ((h | ⟨ha, hb, hne, hk⟩) | ⟨e', he', ha, hb, hne, hk⟩)
        · exact Or.inl h
        · exact Or.inr ⟨e, List.mem_cons_self _ _, ha, hb, hne, hk⟩
        · exact Or.inr ⟨e', List.mem_cons_of_mem _ he', ha, hb, hne, hk⟩
      · rintro (h | ⟨e', he', ha, hb, hne, hk⟩)
        · exact Or.inl (Or.inl h)
        · rcases List.mem_cons.mp he' with rfl | he''
          · exact Or.inl (Or.inr ⟨ha, hb, hne, hk⟩)
          · exact Or.inr ⟨e', he'', ha, hb, hne, hk⟩
    · rw [if_neg hg, ih (fun x hx => hnd x (List.mem_cons_of_mem _ hx))]
      constructor
      · rintro (h | ⟨e', he', ha, hb, hne, hk⟩)
        · exact Or.inl h
        · exact Or.inr ⟨e', List.mem_cons_of_mem _ he', ha, hb, hne, hk⟩
      · rintro (h | ⟨e', he', ha, hb, hne, hk⟩)
        · exact Or.inl h
        · rcases List.mem_cons.mp he' with rfl | he''
          · exact absurd (one_lt_length_of_mem_ne ha hb hne) hg
          · exact Or.inr ⟨e', he'', ha, hb, hne, hk⟩

/-- Characterisation of the built adjacency: two distinct CR keys are
neighbours exactly when some file lies in both their file sets. -/
theorem mem_buildAdj {crF : CrFilesMap} (hknd : (crF.map (fun e => e.1)).Nodup)
    (hfnd : ∀ e ∈ crF, e.2.Nodup) {a b : Str} :
    b ∈ adjNbrs (buildAdj crF) a ↔
      a ∈ crF.map (fun e => e.1) ∧ b ∈ crF.map (fun e => e.1) ∧ a ≠ b ∧
        ∃ f, f ∈ (alookup crF a).getD [] ∧ f ∈ (alookup crF b).getD [] := by
  have hftck := buildFileToCrs_keys_nodup crF
  have hval : ∀ e ∈ buildFileToCrs crF, e.2.Nodup := by
    intro e he
    have hlk := alookup_of_mem_of_nodup hftck he
    have hchar := buildFileToCrs_lookup crF hfnd e.1
    rw [hlk] at hchar
    simp only [Option.getD_some] at hchar
    rw [hchar]
    exact List.Sublist.nodup (List.Sublist.map _ (List.filter_sublist _)) hknd
  unfold buildAdj
  rw [mem_buildAdj_fold hval]
  have hbase : adjNbrs ((sortStrs (crF.map (fun e => e.1))).map (fun c => (c, []))) a = [] :=
    adjNbrs_init _ a
  rw [hbase]
  have hkinit : ((sortStrs (crF.map (fun e => e.1))).map (fun c => (c, ([] : List Str)))).map
      (fun x => x.1) = sortStrs (crF.map (fun e => e.1)) := by
    rw [List.map_map]
    exact List.map_id _
  rw [hkinit]
  constructor
  · rintro (h | ⟨e, he, ha, hb, hne, hk⟩)
    · exact absurd h (List.not_mem_nil b)
    · have hlk := alookup_of_mem_of_nodup hftck he
      have hchar := buildFileToCrs_lookup crF hfnd e.1
      rw [hlk] at hchar
      simp only [Option.getD_some] at hchar
      rw [hchar] at ha hb
      obtain ⟨ea, hea, haa⟩ := List.mem_map.mp ha
      obtain ⟨eb, heb, hbb⟩ := List.mem_map.mp hb
      have hfa : e.1 ∈ ea.2 := by
        have := (List.mem_filter.mp hea).2
        exact of_decide_eq_true this
      have hfb : e.1 ∈ eb.2 := by
        have := (List.mem_filter.mp heb).2
        exact of_decide_eq_true this
      have hla : alookup crF a = some ea.2 := by
        rw [← haa]
        exact alookup_of_mem_of_nodup hknd (by rw [← @Prod.mk.eta _ _ ea]; exact (List.mem_filter.mp hea).1)
      have hlb : alookup crF b = some eb.2 := by
        rw [← hbb]
        exact alookup_of_mem_of_nodup hknd (by rw [← @Prod.mk.eta _ _ eb]; exact (List.mem_filter.mp heb).1)
      refine ⟨haa ▸ List.mem_map.mpr ⟨ea, (List.mem_filter.mp hea).1, rfl⟩,
        hbb ▸ List.mem_map.mpr ⟨eb, (List.mem_filter.mp heb).1, rfl⟩, hne, e.1, ?_, ?_⟩
      · rw [hla]; simpa using hfa
      · rw [hlb]; simpa using hfb
  · rintro ⟨ha, hb, hne, f, hfa, hfb⟩
    right
    obtain ⟨ea, hea, haa⟩ := List.mem_map.mp ha
    obtain ⟨eb, heb, hbb⟩ := List.mem_map.mp hb
    have hla : alookup crF a = some ea.2 := by
      rw [← haa]
      exact alookup_of_mem_of_nodup hknd (by rw [← @Prod.mk.eta _ _ ea]; exact hea)
    have hlb : alookup crF b = some eb.2 := by
      rw [← hbb]
      exact alookup_of_mem_of_nodup hknd (by rw [← @Prod.mk.eta _ _ eb]; exact heb)
    rw [hla] at hfa
    rw [hlb] at hfb
    simp only [Option.getD_some] at hfa hfb
    have hchar := buildFileToCrs_lookup crF hfnd f
    have hmemf : a ∈ (alookup (buildFileToCrs crF) f).getD [] := by
      rw [hchar]
      exact List.mem_map.mpr ⟨ea, List.mem_filter.mpr ⟨hea, decide_eq_true hfa⟩, haa⟩
    have hmemfb : b ∈ (alookup (buildFileToCrs crF) f).getD [] := by
      rw [hchar]
      exact List.mem_map.mpr ⟨eb, List.mem_filter.mpr ⟨heb, decide_eq_true hfb⟩, hbb⟩
    cases hlf : alookup (buildFileToCrs crF) f with
    | none =>
      rw [hlf] at hmemf
      simp at hmemf
    | some crs =>
      rw [hlf] at hmemf hmemfb
      simp only [Option.getD_some] at hmemf hmemfb
      exact ⟨(f, crs), alookup_mem hlf, hmemf, hmemfb, hne, mem_sortStrs.mpr ha⟩

theorem adjInsert_nbrs_nodup {adj : AdjMap} {x y : Str}
    (h : ∀ a, (adjNbrs adj a).Nodup) : ∀ a, (adjNbrs (adjInsert adj x y) a).Nodup := by
  intro a
  have ha := h a
  unfold adjNbrs at ha ⊢
  rw [alookup_adjInsert]
  cases hl : alookup adj a with
  | none => simp
  | some s =>
    rw [hl] at ha
    simp only [Option.getD_some] at ha
    by_cases hax : a = x
    · simp only [Option.map_some, hax, if_pos rfl, Option.getD_some]
      exact setAdd_nodup ha
    · simp only [Option.map_some, if_neg hax, Option.getD_some]
      exact ha

theorem addPairTo_nbrs_nodup {adj : AdjMap} {x y : Str}
    (h : ∀ a, (adjNbrs adj a).Nodup) : ∀ a, (adjNbrs (addPairTo adj x y) a).Nodup :=
  adjInsert_nbrs_nodup (adjInsert_nbrs_nodup h)

theorem foldl_addPairTo_nbrs_nodup {c : Str} {rest : List Str} {adj : AdjMap}
    (h : ∀ a, (adjNbrs adj a).Nodup) :
    ∀ a, (adjNbrs (rest.foldl (fun acc d => addPairTo acc c d) adj) a).Nodup := by
  induction rest generalizing adj with
  | nil => exact h
  | cons d ds ih => exact ih (addPairTo_nbrs_nodup h)

theorem addPairs_nbrs_nodup {crs : List Str} {adj : AdjMap}
    (h : ∀ a, (adjNbrs adj a).Nodup) : ∀ a, (adjNbrs (addPairs crs adj) a).Nodup := by
  induction crs generalizing adj with
  | nil => exact h
  | cons c ds ih => exact ih (foldl_addPairTo_nbrs_nodup h)

theorem fold_guard_nbrs_nodup (entries : List (Str × List Str)) {adj : AdjMap}
    (h : ∀ a, (adjNbrs adj a).Nodup) :
    ∀ a, (adjNbrs (entries.foldl
      (fun adj e => if 1 < e.2.length then addPairs e.2 adj else adj) adj) a).Nodup := by
  induction entries generalizing adj with
  | nil => exact h
  | cons e rest ih =>
    rw [List.foldl_cons]
    by_cases hg : 1 < e.2.length
    · rw [if_pos hg]
      exact ih (addPairs_nbrs_nodup h)
    · rw [if_neg hg]
      exact ih h

theorem buildAdj_nbrs_nodup (crF : CrFilesMap) : ∀ a, (adjNbrs (buildAdj crF) a).Nodup := by
  apply fold_guard_nbrs_nodup
  intro a
  rw [adjNbrs_init]
  exact List.nodup_nil

theorem buildAdj_symm {crF : CrFilesMap} (hknd : (crF.map (fun e => e.1)).Nodup)
    (hfnd : ∀ e ∈ crF, e.2.Nodup) {a b : Str}
    (h : b ∈ adjNbrs (buildAdj crF) a) : a ∈ adjNbrs (buildAdj crF) b := by
  obtain ⟨ha, hb, hne, f, hfa, hfb⟩ := (mem_buildAdj hknd hfnd).mp h
  exact (mem_buildAdj hknd hfnd).mpr ⟨hb, ha, hne.symm, f, hfb, hfa⟩

theorem buildAdj_nbrs_subset {crF : CrFilesMap} (hknd : (crF.map (fun e => e.1)).Nodup)
    (hfnd : ∀ e ∈ crF, e.2.Nodup) {a b : Str}
    (h : b ∈ adjNbrs (buildAdj crF) a) : b ∈ crF.map (fun e => e.1) :=
  ((mem_buildAdj hknd hfnd).mp h).2.1

theorem bfs_master (adj : AdjMap) (K : List Str) (R : Str → Prop)
    (hSub : ∀ x y, y ∈ adjNbrs adj x → y ∈ K)
    (hnbrnd : ∀ x, (adjNbrs adj x).Nodup)
    (hRstep : ∀ a b, R a → b ∈ adjNbrs adj a → R b) :
    ∀ fuel q comp vis,
      (∀ x ∈ q, x ∈ vis) → (∀ x ∈ comp, x ∈ vis) →
      (∀ x ∈ q, R x) → (∀ x ∈ comp, R x) →
      (∀ a ∈ comp, ∀ b, b ∈ adjNbrs adj a → b ∈ vis) →
      q.length + (K.toFinset \ vis.toFinset).card ≤ fuel →
      (∀ x, x ∈ (bfs adj fuel q comp vis).2 ↔ x ∈ vis ∨ x ∈ (bfs adj fuel q comp vis).1)
      ∧ (∀ x ∈ q ++ comp, x ∈ (bfs adj fuel q comp vis).1)
      ∧ (∀ x ∈ (bfs adj fuel q comp vis).1, R x)
      ∧ (∀ a ∈ (bfs adj fuel q comp vis).1, ∀ b, b ∈ adjNbrs adj a →
          b ∈ (bfs adj fuel q comp vis).2)
      ∧ (∀ x ∈ vis, x ∈ (bfs adj fuel q comp vis).2) := by
  intro fuel
  induction fuel with
  | zero =>
    intro q comp vis hqv hcv hqR hcR hcl hm
    have hq : q = [] := List.length_eq_zero.mp (by omega)
    subst hq
    have hr : bfs adj 0 ([] : List Str) comp vis = (comp, vis) := rfl
    rw [hr]
    refine ⟨?_, ?_, hcR, hcl, fun x hx => hx⟩
    · intro x
      constructor
      · exact fun h => Or.inl h
      · rintro (h | h)
        · exact h
        · exact hcv x h
    · intro x hx
      simpa using hx
  | succ n ih =>
    intro q comp vis hqv hcv hqR hcR hcl hm
    cases q with
    | nil =>
      have hr : bfs adj (n + 1) ([] : List Str) comp vis = (comp, vis) := rfl
      rw [hr]
      refine ⟨?_, ?_, hcR, hcl, fun x hx => hx⟩
      · intro x
        constructor
        · exact fun h => Or.inl h
        · rintro (h | h)
          · exact h
          · exact hcv x h
      · intro x hx
        simpa using hx
    | cons node dq =>
      have hnodev : node ∈ vis := hqv node (List.mem_cons_self _ _)
      have hnodeR : R node := hqR node (List.mem_cons_self _ _)
      set fresh := (adjNbrs adj node).filter (fun b => !(decide (b ∈ vis))) with hfr
      have hstep : bfs adj (n + 1) (node :: dq) comp vis
          = bfs adj n (dq ++ fresh) (comp ++ [node]) (vis ++ fresh) := rfl
      have hfsub : ∀ x ∈ fresh, x ∈ adjNbrs adj node := fun x hx => List.mem_of_mem_filter hx
      have hfnv : ∀ x ∈ fresh, x ∉ vis := by
        intro x hx
        have := List.of_mem_filter hx
        simpa using this
      have hfrnd : fresh.Nodup := (hnbrnd node).filter _
      have hsd : K.toFinset \ (vis ++ fresh).toFinset
          = (K.toFinset \ vis.toFinset) \ fresh.toFinset := by
        ext x
        simp only [Finset.mem_sdiff, List.toFinset_append, Finset.mem_union, List.mem_toFinset]
        tauto
      have hfsubA : fresh.toFinset ⊆ K.toFinset \ vis.toFinset := by
        intro x hx
        rw [List.mem_toFinset] at hx
        rw [Finset.mem_sdiff, List.mem_toFinset, List.mem_toFinset]
        exact ⟨hSub node x (hfsub x hx), hfnv x hx⟩
      have hcard : (K.toFinset \ (vis ++ fresh).toFinset).card
          = (K.toFinset \ vis.toFinset).card - fresh.length := by
        rw [hsd, Finset.card_sdiff hfsubA, List.toFinset_card_of_nodup hfrnd]
      have hfle : fresh.length ≤ (K.toFinset \ vis.toFinset).card := by
        have := Finset.card_le_card hfsubA
        rwa [List.toFinset_card_of_nodup hfrnd] at this
      have hm' : (dq ++ fresh).length + (K.toFinset \ (vis ++ fresh).toFinset).card ≤ n := by
        rw [List.length_append, hcard]
        simp only [List.length_cons] at hm
        omega
      have hqv' : ∀ x ∈ dq ++ fresh, x ∈ vis ++ fresh := by
        intro x hx
        rcases List.mem_append.mp hx with h | h
        · exact List.mem_append.mpr (Or.inl (hqv x (List.mem_cons_of_mem _ h)))
        · exact List.mem_append.mpr (Or.inr h)
      have hcv' : ∀ x ∈ comp ++ [node], x ∈ vis ++ fresh := by
        intro x hx
        rcases List.mem_append.mp hx with h | h
        · exact List.mem_append.mpr (Or.inl (hcv x h))
        · exact List.mem_append.mpr (Or.inl ((List.mem_singleton.mp h) ▸ hnodev))
      have hqR' : ∀ x ∈ dq ++ fresh, R x := by
        intro x hx
        rcases List.mem_append.mp hx with h | h
        · exact hqR x (List.mem_cons_of_mem _ h)
        · exact hRstep node x hnodeR (hfsub x h)
      have hcR' : ∀ x ∈ comp ++ [node], R x := by
        intro x hx
        rcases List.mem_append.mp hx with h | h
        · exact hcR x h
        · exact (List.mem_singleton.mp h) ▸ hnodeR
      have hcl' : ∀ a ∈ comp ++ [node], ∀ b, b ∈ adjNbrs adj a → b ∈ vis ++ fresh := by
        intro a ha b hb
        rcases List.mem_append.mp ha with h | h
        · exact List.mem_append.mpr (Or.inl (hcl a h b hb))
        · rw [List.mem_singleton.mp h] at hb
          by_cases hbv : b ∈ vis
          · exact List.mem_append.mpr (Or.inl hbv)
          · refine List.mem_append.mpr (Or.inr ?_)
            rw [hfr]
            exact List.mem_filter.mpr ⟨hb, by simpa using hbv⟩
      obtain ⟨C1, C2, C3, C4, C5⟩ := ih (dq ++ fresh) (comp ++ [node]) (vis ++ fresh)
        hqv' hcv' hqR' hcR' hcl' hm'
      rw [hstep]
      refine ⟨?_, ?_, C3, C4, ?_⟩
      · intro x
        rw [C1 x]
        constructor
        · rintro (h | h)
          · rcases List.mem_append.mp h with h | h
            · exact Or.inl h
            · exact Or.inr (C2 x (List.mem_append.mpr (Or.inl (List.mem_append.mpr (Or.inr h)))))
          · exact Or.inr h
        · rintro (h | h)
          · exact Or.inl (List.mem_append.mpr (Or.inl h))
          · exact Or.inr h
      · intro x hx
        rcases List.mem_append.mp hx with h | h
        · rcases List.mem_cons.mp h with rfl | h
          · exact C2 x (List.mem_append.mpr (Or.inr (List.mem_append.mpr
              (Or.inr (List.mem_singleton.mpr rfl)))))
          · exact C2 x (List.mem_append.mpr (Or.inl (List.mem_append.mpr (Or.inl h))))
        · exact C2 x (List.mem_append.mpr (Or.inr (List.mem_append.mpr (Or.inl h))))
      · intro x hx
        exact C5 x (List.mem_append.mpr (Or.inl hx))


theorem reach_not_in_closed {adj : AdjMap}
    (hSym : ∀ x y, y ∈ adjNbrs adj x → x ∈ adjNbrs adj y)
    {vis0 : List Str} (hclosed : ∀ v ∈ vis0, ∀ y, y ∈ adjNbrs adj v → y ∈ vis0)
    {s : Str} (hs : s ∉ vis0) : ∀ x, AdjReach adj s x → x ∉ vis0 := by
  intro x hx
  induction hx with
  | refl => exact hs
  | tail hab hbc ih =>
    intro hc
    exact ih (hclosed _ hc _ (hSym _ _ hbc))

theorem bfs_call_spec (adj : AdjMap) (K : List Str)
    (hSub : ∀ x y, y ∈ adjNbrs adj x → y ∈ K)
    (hSym : ∀ x y, y ∈ adjNbrs adj x → x ∈ adjNbrs adj y)
    (hnbrnd : ∀ x, (adjNbrs adj x).Nodup)
    (vis0 : List Str) (hclosed : ∀ v ∈ vis0, ∀ y, y ∈ adjNbrs adj v → y ∈ vis0)
    (s : Str) (hs : s ∉ vis0)
    (fuel : Nat) (hfuel : K.length + 1 ≤ fuel) :
    (∀ x, x ∈ (bfs adj fuel [s] [] (vis0 ++ [s])).1 ↔ AdjReach adj s x)
    ∧ (∀ x, x ∈ (bfs adj fuel [s] [] (vis0 ++ [s])).2
        ↔ x ∈ vis0 ∨ x ∈ (bfs adj fuel [s] [] (vis0 ++ [s])).1) := by
  have hm : ([s] : List Str).length + (K.toFinset \ (vis0 ++ [s]).toFinset).card ≤ fuel := by
    have h1 : (K.toFinset \ (vis0 ++ [s]).toFinset).card ≤ K.toFinset.card :=
      Finset.card_le_card (Finset.sdiff_subset)
    have h2 : K.toFinset.card ≤ K.length := List.toFinset_card_le K
    simp only [List.length_singleton]
    omega
  obtain ⟨C1, C2, C3, C4, C5⟩ := bfs_master adj K (AdjReach adj s) hSub hnbrnd
    (fun a b ha hb => Relation.ReflTransGen.tail ha hb)
    fuel [s] [] (vis0 ++ [s])
    (fun x hx => List.mem_append.mpr (Or.inr hx))
    (fun x hx => absurd hx (List.not_mem_nil x))
    (fun x hx => (List.mem_singleton.mp hx) ▸ Relation.ReflTransGen.refl)
    (fun x hx => absurd hx (List.not_mem_nil x))
    (fun a ha => absurd ha (List.not_mem_nil a))
    hm
  have hsin : s ∈ (bfs adj fuel [s] [] (vis0 ++ [s])).1 :=
    C2 s (List.mem_append.mpr (Or.inl (List.mem_singleton.mpr rfl)))
  have hfwd : ∀ x, AdjReach adj s x → x ∈ (bfs adj fuel [s] [] (vis0 ++ [s])).1 := by
    intro x hx
    induction hx with
    | refl => exact hsin
    | tail hab hbc ih =>
      have hb2 := C4 _ ih _ hbc
      rcases (C1 _).mp hb2 with h | h
      · rcases List.mem_append.mp h with h | h
        · exact absurd h (reach_not_in_closed hSym hclosed hs _
            (Relation.ReflTransGen.tail hab hbc))
        · exact (List.mem_singleton.mp h) ▸ hsin
      · exact h
  refine ⟨fun x => ⟨C3 x, hfwd x⟩, ?_⟩
  intro x
  rw [C1 x]
  constructor
  · rintro (h | h)
    · rcases List.mem_append.mp h with h | h
      · exact Or.inl h
      · exact Or.inr ((List.mem_singleton.mp h) ▸ hsin)
    · exact Or.inr h
  · rintro (h | h)
    · exact Or.inl (List.mem_append.mpr (Or.inl h))
    · exact Or.inr h

theorem componentsLoop_spec (adj : AdjMap) (K : List Str)
    (hSub : ∀ x y, y ∈ adjNbrs adj x → y ∈ K)
    (hSym : ∀ x y, y ∈ adjNbrs adj x → x ∈ adjNbrs adj y)
    (hnbrnd : ∀ x, (adjNbrs adj x).Nodup)
    (fuelN : Nat) (hfuel : K.length + 1 ≤ fuelN) :
    ∀ crs vis0, (∀ v ∈ vis0, ∀ y, y ∈ adjNbrs adj v → y ∈ vis0) →
      (∀ comp ∈ (componentsLoop adj fuelN crs vis0).1,
          ∃ s, s ∈ crs ∧ s ∉ vis0 ∧ ∀ x, x ∈ comp ↔ AdjReach adj s x)
      ∧ (∀ c ∈ crs, c ∈ (componentsLoop adj fuelN crs vis0).2)
      ∧ (∀ x, x ∈ (componentsLoop adj fuelN crs vis0).2 ↔
            x ∈ vis0 ∨ ∃ comp ∈ (componentsLoop adj fuelN crs vis0).1, x ∈ comp)
      ∧ (∀ v ∈ (componentsLoop adj fuelN crs vis0).2, ∀ y, y ∈ adjNbrs adj v →
            y ∈ (componentsLoop adj fuelN crs vis0).2)
      ∧ (∀ comp ∈ (componentsLoop adj fuelN crs vis0).1, ∀ x ∈ comp, x ∉ vis0)
      ∧ List.Pairwise (fun c d => ∀ x, x ∈ c → x ∉ d)
          (componentsLoop adj fuelN crs vis0).1 := by
  intro crs
  induction crs with
  | nil =>
    intro vis0 hclosed
    refine ⟨?_, ?_, ?_, hclosed, ?_, List.Pairwise.nil⟩
    · intro comp hcomp
      exact absurd hcomp (List.not_mem_nil comp)
    · intro c hc
      exact absurd hc (List.not_mem_nil c)
    · intro x
      simp [componentsLoop]
    · intro comp hcomp
      exact absurd hcomp (List.not_mem_nil comp)
  | cons cr rest ih =>
    intro vis0 hclosed
    by_cases hcr : cr ∈ vis0
    · have heq : componentsLoop adj fuelN (cr :: rest) vis0
          = componentsLoop adj fuelN rest vis0 := by
        simp only [componentsLoop, if_pos hcr]
      rw [heq]
      obtain ⟨I1, I2, I3, I4, I5, I6⟩ := ih vis0 hclosed
      refine ⟨?_, ?_, I3, I4, I5, I6⟩
      · intro comp hcomp
        obtain ⟨s, hs1, hs2, hs3⟩ := I1 comp hcomp
        exact ⟨s, List.mem_cons_of_mem _ hs1, hs2, hs3⟩
      · intro c hc
        rcases List.mem_cons.mp hc with rfl | hc'
        · exact (I3 c).mpr (Or.inl hcr)
        · exact I2 c hc'
    · have heq : componentsLoop adj fuelN (cr :: rest) vis0
          = ((bfs adj fuelN [cr] [] (vis0 ++ [cr])).1 ::
              (componentsLoop adj fuelN rest
                (bfs adj fuelN [cr] [] (vis0 ++ [cr])).2).1,
             (componentsLoop adj fuelN rest
                (bfs adj fuelN [cr] [] (vis0 ++ [cr])).2).2) := by
        simp only [componentsLoop, if_neg hcr]
      obtain ⟨B1, B2⟩ := bfs_call_spec adj K hSub hSym hnbrnd vis0 hclosed cr hcr fuelN hfuel
      have hcrR : cr ∈ (bfs adj fuelN [cr] [] (vis0 ++ [cr])).1 :=
        (B1 cr).mpr Relation.ReflTransGen.refl
      have hclosed' : ∀ v ∈ (bfs adj fuelN [cr] [] (vis0 ++ [cr])).2, ∀ y,
          y ∈ adjNbrs adj v → y ∈ (bfs adj fuelN [cr] [] (vis0 ++ [cr])).2 := by
        intro v hv y hy
        rcases (B2 v).mp hv with h | h
        · exact (B2 y).mpr (Or.inl (hclosed v h y hy))
        · exact (B2 y).mpr (Or.inr ((B1 y).mpr
            (Relation.ReflTransGen.tail ((B1 v).mp h) hy)))
      obtain ⟨I1, I2, I3, I4, I5, I6⟩ := ih _ hclosed'
      rw [heq]
      refine ⟨?_, ?_, ?_, I4, ?_, ?_⟩
      · intro comp hcomp
        rcases List.mem_cons.mp hcomp with rfl | hcomp'
        · exact ⟨cr, List.mem_cons_self _ _, hcr, B1⟩
        · obtain ⟨s, hs1, hs2, hs3⟩ := I1 comp hcomp'
          refine ⟨s, List.mem_cons_of_mem _ hs1, ?_, hs3⟩
          intro hsv
          exact hs2 ((B2 s).mpr (Or.inl hsv))
      · intro c hc
        rcases List.mem_cons.mp hc with rfl | hc'
        · exact (I3 c).mpr (Or.inl ((B2 c).mpr (Or.inr hcrR)))
        · exact I2 c hc'
      · intro x
        rw [I3 x, B2 x]
        constructor
        · rintro ((h | h) | ⟨comp, hcomp, hx⟩)
          · exact Or.inl h
          · exact Or.inr ⟨_, List.mem_cons_self _ _, h⟩
          · exact Or.inr ⟨comp, List.mem_cons_of_mem _ hcomp, hx⟩
        · rintro (h | ⟨comp, hcomp, hx⟩)
          · exact Or.inl (Or.inl h)
          · rcases List.mem_cons.mp hcomp with rfl | hcomp'
            · exact Or.inl (Or.inr hx)
            · exact Or.inr ⟨comp, hcomp', hx⟩
      · intro comp hcomp x hx
        rcases List.mem_cons.mp hcomp with rfl | hcomp'
        · exact reach_not_in_closed hSym hclosed hcr x ((B1 x).mp hx)
        · intro hxv
          exact I5 comp hcomp' x hx ((B2 x).mpr (Or.inl hxv))
      · refine List.pairwise_cons.mpr ⟨?_, I6⟩
        intro d hd x hx
        intro hxd
        exact I5 d hd x hxd ((B2 x).mpr (Or.inr hx))

theorem sharesFile_key_left {crF : CrFilesMap} {a b : Str} (h : sharesFile crF a b) :
    a ∈ crF.map (fun e => e.1) := by
  obtain ⟨f, hfa, _⟩ := h
  by_contra hk
  rw [alookup_eq_none.mpr hk] at hfa
  exact absurd hfa (List.not_mem_nil f)

theorem sharesFile_key_right {crF : CrFilesMap} {a b : Str} (h : sharesFile crF a b) :
    b ∈ crF.map (fun e => e.1) := by
  obtain ⟨f, _, hfb⟩ := h
  by_contra hk
  rw [alookup_eq_none.mpr hk] at hfb
  exact absurd hfb (List.not_mem_nil f)

theorem adjReach_iff_shareReach {crF : CrFilesMap}
    (hknd : (crF.map (fun e => e.1)).Nodup) (hfnd : ∀ e ∈ crF, e.2.Nodup) {s x : Str} :
    AdjReach (buildAdj crF) s x ↔ Relation.ReflTransGen (sharesFile crF) s x := by
  constructor
  · intro h
    induction h with
    | refl => exact Relation.ReflTransGen.refl
    | tail hab hbc ih =>
      obtain ⟨_, _, _, f, hfa, hfb⟩ := (mem_buildAdj hknd hfnd).mp hbc
      exact Relation.ReflTransGen.tail ih ⟨f, hfa, hfb⟩
  · intro h
    induction h with
    | refl => exact Relation.ReflTransGen.refl
    | tail hab hbc ih =>
      rename_i b c
      by_cases hbc' : b = c
      · exact hbc' ▸ ih
      · exact Relation.ReflTransGen.tail ih ((mem_buildAdj hknd hfnd).mpr
          ⟨sharesFile_key_left hbc, sharesFile_key_right hbc, hbc',
            hbc.choose, hbc.choose_spec.1, hbc.choose_spec.2⟩)

theorem find_singleton_spec (p : Str) (crF : CrFilesMap)
    (hknd : (crF.map (fun e => e.1)).Nodup)
    (hfnd : ∀ e ∈ crF, e.2.Nodup) :
    (∀ plan ∈ find_cr_components_per_project [(p, crF)],
        plan.project = p
        ∧ plan.cr_files
            = plan.group_crs.map (fun c => (c, sortStrs ((alookup crF c).getD []).dedup))
        ∧ (∃ s, s ∈ crF.map (fun e => e.1)
            ∧ ∀ x, x ∈ plan.group_crs ↔ Relation.ReflTransGen (sharesFile crF) s x)
        ∧ (∀ f, f ∈ plan.all_files ↔ ∃ c, c ∈ plan.group_crs ∧ f ∈ (alookup crF c).getD []))
    ∧ (∀ c, c ∈ crF.map (fun e => e.1) →
        ∃ plan, plan ∈ find_cr_components_per_project [(p, crF)] ∧ c ∈ plan.group_crs)
    ∧ List.Pairwise (fun P Q => ∀ x, x ∈ P.group_crs → x ∉ Q.group_crs)
        (find_cr_components_per_project [(p, crF)]) := by
  have hsing : find_cr_components_per_project [(p, crF)]
      = ((componentsLoop (buildAdj crF) ((sortStrs (crF.map (fun x => x.1))).length + 1)
          (sortStrs (crF.map (fun x => x.1))) []).1).map
          (fun c => mkCommitPlan p crF (sortStrs c)) := by
    simp only [find_cr_components_per_project, List.flatMap_cons, List.flatMap_nil,
      List.append_nil]
  have hSub : ∀ x y, y ∈ adjNbrs (buildAdj crF) x → y ∈ sortStrs (crF.map (fun x => x.1)) :=
    fun x y h => mem_sortStrs.mpr (buildAdj_nbrs_subset hknd hfnd h)
  have hSym : ∀ x y, y ∈ adjNbrs (buildAdj crF) x → x ∈ adjNbrs (buildAdj crF) y :=
    fun x y h => buildAdj_symm hknd hfnd h
  obtain ⟨L1, L2, L3, L4, L5, L6⟩ := componentsLoop_spec (buildAdj crF)
    (sortStrs (crF.map (fun x => x.1))) hSub hSym (buildAdj_nbrs_nodup crF)
    ((sortStrs (crF.map (fun x => x.1))).length + 1) (le_refl _)
    (sortStrs (crF.map (fun x => x.1))) []
    (fun v hv => absurd hv (List.not_mem_nil v))
  refine ⟨?_, ?_, ?_⟩
  · intro plan hplan
    rw [hsing] at hplan
    obtain ⟨comp, hcomp, rfl⟩ := List.mem_map.mp hplan
    obtain ⟨s, hsK, _, hiff⟩ := L1 comp hcomp
    dsimp only [mkCommitPlan]
    refine ⟨rfl, rfl, ⟨s, mem_sortStrs.mp hsK, ?_⟩, ?_⟩
    · intro x
      rw [mem_sortStrs, hiff x]
      exact adjReach_iff_shareReach hknd hfnd
    · intro f
      rw [mem_sortStrs, List.mem_dedup, List.mem_flatMap]
  · intro c hc
    have hcv := L2 c (mem_sortStrs.mpr hc)
    rcases (L3 c).mp hcv with h | ⟨comp, hcomp, hcc⟩
    · exact absurd h (List.not_mem_nil c)
    · refine ⟨mkCommitPlan p crF (sortStrs comp), ?_, ?_⟩
      · rw [hsing]
        exact List.mem_map.mpr ⟨comp, hcomp, rfl⟩
      · show c ∈ sortStrs comp
        exact mem_sortStrs.mpr hcc
  · rw [hsing]
    refine List.pairwise_map.mpr ?_
    refine L6.imp ?_
    intro c d h x hx hxd
    exact h x (mem_sortStrs.mp hx) (mem_sortStrs.mp hxd)

/-- C1: grouping splits into independent per-repository computations; within a
repository every plan's CR group is exactly a reachability class of the
shares-a-file relation, its all_files list is the union of its members' file
sets, every CR is covered by some plan, distinct plans are disjoint, and the
concrete A{x,y}/B{y,z}/C{w} repository yields exactly the two expected plans
with file unions {x,y,z} and {w}. -/
theorem grouping_partitions_components (pm : ProjectMap) (p : Str) (crF : CrFilesMap)
    (hknd : (crF.map (fun e => e.1)).Nodup)
    (hfnd : ∀ e ∈ crF, e.2.Nodup) :
    (find_cr_components_per_project pm
        = pm.flatMap (fun e => find_cr_components_per_project [e]))
    ∧ (∀ plan ∈ find_cr_components_per_project [(p, crF)],
        plan.project = p
        ∧ (∃ s, s ∈ crF.map (fun e => e.1)
            ∧ ∀ x, x ∈ plan.group_crs ↔ Relation.ReflTransGen (sharesFile crF) s x)
        ∧ (∀ f, f ∈ plan.all_files ↔ ∃ c, c ∈ plan.group_crs ∧ f ∈ (alookup crF c).getD []))
    ∧ (∀ c, c ∈ crF.map (fun e => e.1) →
        ∃ plan, plan ∈ find_cr_components_per_project [(p, crF)] ∧ c ∈ plan.group_crs)
    ∧ List.Pairwise (fun P Q => ∀ x, x ∈ P.group_crs → x ∉ Q.group_crs)
        (find_cr_components_per_project [(p, crF)])
    ∧ find_cr_components_per_project
        [("proj".data, [("CR-A".data, ["x".data, "y".data]),
          ("CR-B".data, ["y".data, "z".data]), ("CR-C".data, ["w".data])])]
      = [{ project := "proj".data, group_crs := ["CR-A".data, "CR-B".data],
           all_files := ["x".data, "y".data, "z".data],
           cr_files := [("CR-A".data, ["x".data, "y".data]),
             ("CR-B".data, ["y".data, "z".data])],
           repo_index := none, repo_total := none },
         { project := "proj".data, group_crs := ["CR-C".data],
           all_files := ["w".data], cr_files := [("CR-C".data, ["w".data])],
           repo_index := none, repo_total := none }] := by
  obtain ⟨S1, S2, S3⟩ := find_singleton_spec p crF hknd hfnd
  refine ⟨?_, ?_, S2, S3, by decide⟩
  · simp only [find_cr_components_per_project, List.flatMap_cons, List.flatMap_nil,
      List.append_nil]
  · intro plan hplan
    obtain ⟨h1, _, h3, h4⟩ := S1 plan hplan
    exact ⟨h1, h3, h4⟩

theorem grouping_partitions_components_witness :
    ((([("CR-A".data, ["x".data])] : CrFilesMap).map (fun e => e.1)).Nodup
      ∧ (∀ e ∈ ([("CR-A".data, ["x".data])] : CrFilesMap), e.2.Nodup))
    ∧ List.Pairwise (fun P Q => ∀ x, x ∈ P.group_crs → x ∉ Q.group_crs)
        (find_cr_components_per_project [("p".data, [("CR-A".data, ["x".data])])]) :=
  ⟨⟨by decide, by decide⟩,
    (grouping_partitions_components [] "p".data [("CR-A".data, ["x".data])]
      (by decide) (by decide)).2.2.2.1⟩

/-- C2 counterexample: for CRs A with files {x,y} and B with files {y,z} in one
repository, grouping yields a single plan in which file y is listed under two
CRs of the cr_files map — not exactly one. -/
theorem grouping_file_two_crs_counterexample :
    (find_cr_components_per_project
        [("proj".data, [("CR-A".data, ["x".data, "y".data]),
          ("CR-B".data, ["y".data, "z".data])])]).map
        (fun plan => (decide ("y".data ∈ plan.all_files),
          (plan.cr_files.filter (fun e => decide ("y".data ∈ e.2))).length))
      = [(true, 2)] := by decide

/-- C2 (amended): every file in a plan's all_files belongs to at least one CR
of its cr_files map; each plan's CR group is closed under the shares-a-file
relation, hence a maximal connected component; and no two plans produced for
the same repository share a CR identifier. -/
theorem grouping_invariant_amended (p : Str) (crF : CrFilesMap)
    (hknd : (crF.map (fun e => e.1)).Nodup)
    (hfnd : ∀ e ∈ crF, e.2.Nodup) :
    (∀ plan ∈ find_cr_components_per_project [(p, crF)],
        (∀ f ∈ plan.all_files, ∃ e, e ∈ plan.cr_files ∧ f ∈ e.2)
        ∧ (∀ a ∈ plan.group_crs, ∀ b, sharesFile crF a b → b ∈ plan.group_crs))
    ∧ List.Pairwise (fun P Q => ∀ x, x ∈ P.group_crs → x ∉ Q.group_crs)
        (find_cr_components_per_project [(p, crF)]) := by
  obtain ⟨S1, _, S3⟩ := find_singleton_spec p crF hknd hfnd
  refine ⟨?_, S3⟩
  intro plan hplan
  obtain ⟨_, h2, ⟨s, _, hiff⟩, h4⟩ := S1 plan hplan
  constructor
  · intro f hf
    obtain ⟨c, hc, hfc⟩ := (h4 f).mp hf
    refine ⟨(c, sortStrs ((alookup crF c).getD []).dedup), ?_, ?_⟩
    · rw [h2]
      exact List.mem_map.mpr ⟨c, hc, rfl⟩
    · show f ∈ sortStrs ((alookup crF c).getD []).dedup
      rw [mem_sortStrs, List.mem_dedup]
      exact hfc
  · intro a ha b hab
    exact (hiff b).mpr (Relation.ReflTransGen.tail ((hiff a).mp ha) hab)

theorem grouping_invariant_amended_witness :
    ((([("CR-A".data, ["x".data, "y".data]), ("CR-B".data, ["y".data, "z".data])]
          : CrFilesMap).map (fun e => e.1)).Nodup
      ∧ (∀ e ∈ ([("CR-A".data, ["x".data, "y".data]),
          ("CR-B".data, ["y".data, "z".data])] : CrFilesMap), e.2.Nodup))
    ∧ List.Pairwise (fun P Q => ∀ x, x ∈ P.group_crs → x ∉ Q.group_crs)
        (find_cr_components_per_project
          [("proj".data, [("CR-A".data, ["x".data, "y".data]),
            ("CR-B".data, ["y".data, "z".data])])]) :=
  ⟨⟨by decide, by decide⟩,
    (grouping_invariant_amended "proj".data
      [("CR-A".data, ["x".data, "y".data]), ("CR-B".data, ["y".data, "z".data])]
      (by decide) (by decide)).2⟩
